import Mathlib

/-!
Verification of the pipeline DAG validator (`src/main.py`).

The repository exposes one endpoint, `parse_pipeline`, which decodes two
JSON-encoded strings into generic values, validates their shape, and runs
`is_dag` (Kahn's algorithm) to decide acyclicity.  This file embeds the
decoded JSON value universe, the `is_dag` function, and the endpoint body
as Lean definitions, and proves the specified properties about them.

The dictionaries of `is_dag` are CPython dicts keyed by decoded JSON
values, so the embedding models CPython key semantics: a key is hashed
first (lists and objects are unhashable and raise `TypeError`, which only
the endpoint's catch-all handler sees), and hashable keys compare with
`==`, under which a boolean and its numeric value are the same key
(`True == 1`, `False == 0`).  Accordingly `is_dag` returns
`Except String Bool`: either the boolean the Python function returns, or
the message of the `TypeError` it raises.
-/

/-! ## Decoded JSON values

Python's `json.loads` produces nested values built from `None`, booleans,
numbers, strings, lists and string-keyed objects.  `JVal` is that universe
(numbers modelled as integers; no claim here depends on numeric semantics).
-/

mutual
inductive JVal where
  | null : JVal
  | bool (b : Bool) : JVal
  | num (n : Int) : JVal
  | str (s : String) : JVal
  | arr (xs : JArr) : JVal
  | obj (fields : JObj) : JVal
deriving DecidableEq

inductive JArr where
  | nil : JArr
  | cons (hd : JVal) (tl : JArr) : JArr
deriving DecidableEq

inductive JObj where
  | nil : JObj
  | cons (key : String) (val : JVal) (tl : JObj) : JObj
deriving DecidableEq
end

/-- Elements of a decoded JSON array, as a Lean list (a Python `list`). -/
def JArr.toList : JArr → List JVal
  | .nil => []
  | .cons h t => h :: t.toList

/-- Lookup of a key in a decoded JSON object (a Python `dict` access with
a string key). -/
def JObj.lookup : JObj → String → Option JVal
  | .nil, _ => none
  | .cons k v t, key => if k = key then some v else t.lookup key

/-- Combined shape check and field access: `isinstance(v, dict)` together
with `key in v` / `v[key]`.  Returns `none` for non-objects and for objects
missing the key. -/
def getField (v : JVal) (key : String) : Option JVal :=
  match v with
  | .obj fields => fields.lookup key
  | _ => none

/-- Python `isinstance(v, list)`. -/
def isList (v : JVal) : Bool :=
  match v with
  | .arr _ => true
  | _ => false

/-! ## Python dictionary keys

Every CPython dict operation hashes the key and compares candidates with
`==`.  Decoded lists and objects are unhashable: the hashing step raises
`TypeError: unhashable type: 'list'` (or `'dict'`).  On hashable decoded
values, `==`-equality identifies a boolean with its numeric value
(`True == 1`, `False == 0`, with equal hashes) and nothing else across
types.  `PyKey` is the canonical dict key of a hashable decoded value and
`toKey` computes it, failing with the `str(e)` of the `TypeError` a dict
operation on the value would raise. -/

inductive PyKey where
  | null : PyKey
  | int (n : Int) : PyKey
  | str (s : String) : PyKey
deriving DecidableEq

/-- Canonical dict key of a decoded value, or the `TypeError` message the
hashing step raises. -/
def toKey (v : JVal) : Except String PyKey :=
  match v with
  | .null => .ok .null
  | .bool b => .ok (.int (if b then 1 else 0))
  | .num n => .ok (.int n)
  | .str s => .ok (.str s)
  | .arr _ => .error "unhashable type: 'list'"
  | .obj _ => .error "unhashable type: 'dict'"

instance {ε α : Type} [DecidableEq ε] [DecidableEq α] :
    DecidableEq (Except ε α) := fun a b =>
  match a, b with
  | .error x, .error y =>
    if h : x = y then isTrue (by rw [h])
    else isFalse (fun hh => h (Except.error.inj hh))
  | .ok x, .ok y =>
    if h : x = y then isTrue (by rw [h])
    else isFalse (fun hh => h (Except.ok.inj hh))
  | .error _, .ok _ => isFalse (fun hh => Except.noConfusion hh)
  | .ok _, .error _ => isFalse (fun hh => Except.noConfusion hh)

/-! ## Insertion-ordered dictionaries

Python `dict` / `collections.defaultdict` keyed by node-id values: an
association list over canonical keys in insertion order; assignment
updates in place when the key is present and appends otherwise.  The
callers below convert a value to its `PyKey` with `toKey` before any
dictionary operation, modelling the hashing step (and its `TypeError` on
unhashable values); equal keys such as `True` and `1` therefore share one
entry, as in CPython. -/

/-- Association list modelling the Python dictionaries of `is_dag`. -/
abbrev PyDict (β : Type) := List (PyKey × β)

/-- Dictionary read: value of key `k`, if present (first occurrence). -/
def alookup {β : Type} : PyDict β → PyKey → Option β
  | [], _ => none
  | (k', v') :: rest, k => if k' = k then some v' else alookup rest k

/-- Dictionary write `d[k] = v`: update in place, or append a new entry. -/
def dinsert {β : Type} : PyDict β → PyKey → β → PyDict β
  | [], k, v => [(k, v)]
  | (k', v') :: rest, k, v =>
    if k' = k then (k', v) :: rest else (k', v') :: dinsert rest k v

/-- Keys of the dictionary in insertion order (Python iteration order). -/
def akeys {β : Type} (m : PyDict β) : List PyKey := m.map Prod.fst

/-! ## The `is_dag` function (src/main.py lines 26-77) -/

/-- Outcome of one of the two validation loops of `is_dag`: the built
state, an early `return False`, or a raised `TypeError`. -/
inductive BuildOut (α : Type) where
  | ok (a : α) : BuildOut α
  | failed : BuildOut α
  | exc (msg : String) : BuildOut α

/-- Node loop of `is_dag` (lines 40-44): for each node check it is a dict
containing `'id'` (`.failed` models the `return False` on a malformed
node), then execute `in_degree[node['id']] = 0` — which hashes the id,
raising `TypeError` (`.exc`) on an unhashable value. -/
def buildInDegree : List JVal → PyDict Int → BuildOut (PyDict Int)
  | [], ind => .ok ind
  | node :: rest, ind =>
    match getField node "id" with
    | none => .failed
    | some node_id =>
      match toKey node_id with
      | .error m => .exc m
      | .ok k => buildInDegree rest (dinsert ind k 0)

/-- Edge loop of `is_dag` (lines 47-59): for each edge check dict shape and
presence of `'source'`/`'target'` (line 48, `.failed` on violation), then
evaluate `source not in in_degree or target not in in_degree` (line 55):
`source` is hashed first (`.exc` on unhashable), and the `or`
short-circuits, so `target` is hashed only when `source` is a key.  On
success append to `graph[source]` and increment `in_degree[target]`.
Targets are stored in the adjacency lists by their canonical key, which is
all the later loop consults (line 72, `in_degree[neighbor]`). -/
def buildGraph :
    List JVal → PyDict (List PyKey) → PyDict Int →
    BuildOut (PyDict (List PyKey) × PyDict Int)
  | [], graph, ind => .ok (graph, ind)
  | edge :: rest, graph, ind =>
    match getField edge "source", getField edge "target" with
    | some source, some target =>
      match toKey source with
      | .error m => .exc m
      | .ok ks =>
        if (alookup ind ks).isSome then
          match toKey target with
          | .error m => .exc m
          | .ok kt =>
            if (alookup ind kt).isSome then
              buildGraph rest
                (dinsert graph ks (((alookup graph ks).getD []) ++ [kt]))
                (dinsert ind kt (((alookup ind kt).getD 0) + 1))
            else .failed
        else .failed
    | _, _ => .failed

/-- Inner loop of Kahn's algorithm (lines 71-74): decrement the in-degree
of each neighbor of the dequeued node, enqueueing neighbors whose
in-degree becomes exactly zero.  All values here are validated dict keys,
so no operation can raise. -/
def processNeighbors :
    List PyKey → PyDict Int → List PyKey → PyDict Int × List PyKey
  | [], ind, queue => (ind, queue)
  | neighbor :: rest, ind, queue =>
    let d := ((alookup ind neighbor).getD 0) - 1
    processNeighbors rest (dinsert ind neighbor d)
      (if d = 0 then queue ++ [neighbor] else queue)

/-- Outer loop of Kahn's algorithm (lines 66-74): dequeue from the front,
count the node as processed, and update its neighbors.  The Python `while`
loop carries no fuel; the fuel argument here is an upper bound on the
number of iterations, shown sufficient in the proofs below. -/
def kahnLoop (graph : PyDict (List PyKey)) :
    Nat → PyDict Int → List PyKey → Nat → Nat
  | 0, _, _, processed => processed
  | fuel + 1, ind, queue, processed =>
    match queue with
    | [] => processed
    | current :: rest =>
      let step := processNeighbors ((alookup graph current).getD []) ind rest
      kahnLoop graph fuel step.1 step.2 (processed + 1)

/-- The `is_dag` function (lines 26-77): empty shortcut checks, node and
edge validation, then Kahn's algorithm; returns whether the number of
processed nodes equals `len(nodes)`.  An early `return False` of a
validation loop yields `.ok false`; a `TypeError` raised by a dictionary
operation on an unhashable id propagates as `.error`. -/
def is_dag (nodes edges : List JVal) : Except String Bool :=
  if nodes.isEmpty then .ok true
  else if edges.isEmpty then .ok true
  else
    match buildInDegree nodes [] with
    | .exc m => .error m
    | .failed => .ok false
    | .ok ind0 =>
      match buildGraph edges [] ind0 with
      | .exc m => .error m
      | .failed => .ok false
      | .ok (graph, ind) =>
        let queue := (akeys ind).filter (fun v =>
          match alookup ind v with
          | some d => d == 0
          | none => false)
        .ok (kahnLoop graph (ind.length + 1) ind queue 0 == nodes.length)

/-! ## The endpoint `parse_pipeline` (src/main.py lines 79-139) -/

/-- Response body of the endpoint: either the ValidationResult record
`{num_nodes, num_edges, is_dag, message}` or the error record `{error}`. -/
inductive Response where
  | result (num_nodes : Nat) (num_edges : Nat) (is_dag : Bool)
      (message : String) : Response
  | error (msg : String) : Response
deriving DecidableEq

/-- Body of `parse_pipeline` after JSON decoding (lines 91-134): list shape
checks, empty-input shortcuts, the `is_dag` call, and message composition.
A `TypeError` raised inside `is_dag` is caught by the handler at lines
138-139 and surfaced as `{'error': f'Processing error: {str(e)}'}`. -/
def parse_pipeline_core (nodes_data edges_data : JVal) : Response :=
  match nodes_data with
  | .arr ns =>
    match edges_data with
    | .arr es =>
      let nodes_list := ns.toList
      let edges_list := es.toList
      let num_nodes := nodes_list.length
      let num_edges := edges_list.length
      if num_nodes == 0 && num_edges == 0 then
        .result 0 0 true "Empty pipeline - no nodes or edges"
      else if num_nodes == 0 && num_edges > 0 then
        .result 0 num_edges false "Invalid pipeline - edges exist without nodes"
      else
        match is_dag nodes_list edges_list with
        | .error m => .error ("Processing error: " ++ m)
        | .ok is_dag_result =>
          let message :=
            if num_nodes > 0 && num_edges == 0 then
              "Pipeline contains only isolated nodes"
            else if !is_dag_result then
              "Pipeline contains cycles and is not a valid DAG"
            else
              "Valid pipeline structure"
          .result num_nodes num_edges is_dag_result message
    | _ => .error "Edges data must be a list"
  | _ => .error "Nodes data must be a list"

/-- The endpoint handler (lines 79-139).  `json.loads` is external library
code, so it is taken as a parameter `decode` that either yields a decoded
value or fails with a message (`json.JSONDecodeError`); the theorems below
hold for every decoder.  `nodes` is decoded before `edges`, matching the
statement order in the `try` block, and a decode failure is converted to
the `{'error': 'Invalid JSON format: ...'}` record (line 137). -/
def parse_pipeline (decode : String → Except String JVal)
    (nodes edges : String) : Response :=
  match decode nodes with
  | .error e => .error ("Invalid JSON format: " ++ e)
  | .ok nodes_data =>
    match decode edges with
    | .error e => .error ("Invalid JSON format: " ++ e)
    | .ok edges_data => parse_pipeline_core nodes_data edges_data

/-! ## Spec-side notions

These definitions follow the specification's and the claims' words (graph,
cycle, well-formedness), to be compared against the behavior of `is_dag`.
The structural variants (`nodeIds`, `goodNode`, `goodEdge`, `hasCycle`)
read identifiers as raw decoded values; the key-level variants (`nodeKeys`,
`goodNodeK`, `goodEdgeK`, `hasCycleK`) read them as Python dict keys, which
is how the program actually compares them. -/

/-- Identifier list of a node sequence: the `id` field of each node that
is a record carrying one. -/
def nodeIds (nodes : List JVal) : List JVal :=
  nodes.filterMap (fun n => getField n "id")

/-- A node element is well-formed when it is a record containing key `id`. -/
def goodNode (n : JVal) : Bool := (getField n "id").isSome

/-- An edge element is well-formed (relative to a list of known node ids,
compared structurally) when it is a record with `source` and `target`
fields whose values both occur among the ids. -/
def goodEdge (ids : List JVal) (e : JVal) : Bool :=
  match getField e "source", getField e "target" with
  | some s, some t => decide (s ∈ ids) && decide (t ∈ ids)
  | _, _ => false

/-- Directed-edge relation on raw values: `a ⟶ b` when some edge record
has source `a` and target `b`. -/
def edgeRel (edges : List JVal) (a b : JVal) : Prop :=
  ∃ e ∈ edges, getField e "source" = some a ∧ getField e "target" = some b

/-- The graph described by the edge sequence, on raw identifier values,
contains a directed cycle. -/
def hasCycle (edges : List JVal) : Prop :=
  ∃ a, Relation.TransGen (edgeRel edges) a a

/-- Canonical keys of the node ids, in order: the dict keys of each node
that is a record whose `id` value is hashable. -/
def nodeKeys (nodes : List JVal) : List PyKey :=
  nodes.filterMap (fun n =>
    match getField n "id" with
    | some i => (toKey i).toOption
    | none => none)

/-- A node element is a record containing key `id` with a hashable value:
exactly the nodes the node loop of `is_dag` passes without returning or
raising. -/
def goodNodeK (n : JVal) : Bool :=
  match getField n "id" with
  | some i =>
    match toKey i with
    | .ok _ => true
    | .error _ => false
  | none => false

/-- An edge element is a record with `source` and `target` whose canonical
keys both occur among the given keys: exactly the edges the edge loop of
`is_dag` accepts. -/
def goodEdgeK (keys : List PyKey) (e : JVal) : Bool :=
  match getField e "source", getField e "target" with
  | some s, some t =>
    match toKey s, toKey t with
    | .ok ks, .ok kt => decide (ks ∈ keys) && decide (kt ∈ keys)
    | _, _ => false
  | _, _ => false

/-- An edge element that cannot make the edge loop raise: if it is a
record carrying both `source` and `target`, the two values are hashable.
Non-records and records missing a field are rejected at the shape check
(line 48) before anything is hashed. -/
def noRaiseEdge (e : JVal) : Bool :=
  match getField e "source", getField e "target" with
  | some s, some t =>
    (match toKey s with | .ok _ => true | .error _ => false) &&
    (match toKey t with | .ok _ => true | .error _ => false)
  | _, _ => true

/-- Directed-edge relation on canonical keys: `a ⟶ b` when some edge
record has a source with key `a` and a target with key `b`. -/
def edgeRelK (edges : List JVal) (a b : PyKey) : Prop :=
  ∃ e ∈ edges, ∃ s t, getField e "source" = some s ∧
    getField e "target" = some t ∧ toKey s = .ok a ∧ toKey t = .ok b

/-- The graph described by the edge sequence, on identifier keys (vertices
are Python dict keys, as the program compares them), contains a directed
cycle. -/
def hasCycleK (edges : List JVal) : Prop :=
  ∃ a, Relation.TransGen (edgeRelK edges) a a


/-! ## Dictionary lemmas -/

theorem alookup_dinsert_self {β : Type} (m : PyDict β) (k : PyKey) (v : β) :
    alookup (dinsert m k v) k = some v := by
  induction m with
  | nil => simp [dinsert, alookup]
  | cons kv rest ih =>
    obtain ⟨k', v'⟩ := kv
    by_cases h : k' = k <;> simp [dinsert, alookup, h, ih]

theorem alookup_dinsert_ne {β : Type} (m : PyDict β) (k w : PyKey) (v : β)
    (h : w ≠ k) : alookup (dinsert m k v) w = alookup m w := by
  induction m with
  | nil =>
    have h' : ¬ (k = w) := fun hh => h hh.symm
    simp [dinsert, alookup, h']
  | cons kv rest ih =>
    obtain ⟨k', v'⟩ := kv
    by_cases h1 : k' = k
    · rw [dinsert, if_pos h1]
      have h2 : ¬ (k' = w) := by rw [h1]; exact fun hh => h hh.symm
      rw [alookup, if_neg h2, alookup, if_neg h2]
    · rw [dinsert, if_neg h1]
      by_cases h2 : k' = w
      · rw [alookup, if_pos h2, alookup, if_pos h2]
      · rw [alookup, if_neg h2, alookup, if_neg h2, ih]

theorem akeys_cons {β : Type} (k : PyKey) (v : β) (rest : PyDict β) :
    akeys ((k, v) :: rest) = k :: akeys rest := rfl

theorem mem_akeys_iff_isSome {β : Type} (m : PyDict β) (k : PyKey) :
    k ∈ akeys m ↔ (alookup m k).isSome = true := by
  induction m with
  | nil => simp [akeys, alookup]
  | cons kv rest ih =>
    obtain ⟨k', v'⟩ := kv
    by_cases h : k' = k
    · subst h
      simp [akeys_cons, alookup]
    · rw [akeys_cons, List.mem_cons, alookup, if_neg h, ih]
      constructor
      · intro hh
        rcases hh with hh | hh
        · exact absurd hh.symm h
        · exact hh
      · exact Or.inr

theorem akeys_dinsert_of_mem {β : Type} (m : PyDict β) (k : PyKey) (v : β)
    (h : k ∈ akeys m) : akeys (dinsert m k v) = akeys m := by
  induction m with
  | nil => simp [akeys] at h
  | cons kv rest ih =>
    obtain ⟨k', v'⟩ := kv
    by_cases h1 : k' = k
    · rw [dinsert, if_pos h1, akeys_cons, akeys_cons]
    · rw [dinsert, if_neg h1]
      have h2 : k ∈ akeys rest := by
        rcases (by simpa [akeys_cons] using h : k = k' ∨ k ∈ akeys rest) with hh | hh
        · exact absurd hh.symm h1
        · exact hh
      rw [akeys_cons, akeys_cons, ih h2]

theorem akeys_dinsert_of_not_mem {β : Type} (m : PyDict β) (k : PyKey) (v : β)
    (h : k ∉ akeys m) : akeys (dinsert m k v) = akeys m ++ [k] := by
  induction m with
  | nil => rfl
  | cons kv rest ih =>
    obtain ⟨k', v'⟩ := kv
    have h1 : ¬ (k' = k) := by
      intro hh; exact h (by simp [akeys_cons, hh])
    have h2 : k ∉ akeys rest := by
      intro hh; exact h (by rw [akeys_cons]; exact List.mem_cons_of_mem _ hh)
    rw [dinsert, if_neg h1, akeys_cons, akeys_cons, ih h2, List.cons_append]

theorem mem_akeys_dinsert {β : Type} (m : PyDict β) (k w : PyKey) (v : β) :
    w ∈ akeys (dinsert m k v) ↔ w ∈ akeys m ∨ w = k := by
  by_cases h : k ∈ akeys m
  · rw [akeys_dinsert_of_mem m k v h]
    constructor
    · exact Or.inl
    · rintro (hw | rfl) <;> [exact hw; exact h]
  · rw [akeys_dinsert_of_not_mem m k v h]; simp

theorem akeys_dinsert_nodup {β : Type} (m : PyDict β) (k : PyKey) (v : β)
    (h : (akeys m).Nodup) : (akeys (dinsert m k v)).Nodup := by
  by_cases h1 : k ∈ akeys m
  · rwa [akeys_dinsert_of_mem m k v h1]
  · rw [akeys_dinsert_of_not_mem m k v h1]
    simpa [List.nodup_append] using ⟨h, h1⟩

/-! ## Lemmas about the node loop of `is_dag` -/

theorem buildInDegree_ok_iff (nodes : List JVal) :
    ∀ ind : PyDict Int, (∃ res, buildInDegree nodes ind = .ok res) ↔
      ∀ n ∈ nodes, goodNodeK n = true := by
  induction nodes with
  | nil => intro ind; simp [buildInDegree]
  | cons n rest ih =>
    intro ind
    cases hf : getField n "id" with
    | none => simp [buildInDegree, hf, goodNodeK]
    | some i =>
      cases hk : toKey i with
      | error m => simp [buildInDegree, hf, hk, goodNodeK]
      | ok k => simp [buildInDegree, hf, hk, ih, goodNodeK]

theorem buildInDegree_failed_at (pre : List JVal) :
    ∀ (rest : List JVal) (n : JVal) (ind : PyDict Int),
    (∀ m ∈ pre, goodNodeK m = true) → goodNode n = false →
    buildInDegree (pre ++ n :: rest) ind = .failed := by
  induction pre with
  | nil =>
    intro rest n ind _ hbad
    have hnone : getField n "id" = none := by
      cases hg : getField n "id" with
      | none => rfl
      | some i =>
        rw [goodNode, hg] at hbad
        simp at hbad
    simp [buildInDegree, hnone]
  | cons m pre' ih =>
    intro rest n ind hpre hbad
    have hm := hpre m (by simp)
    cases hg : getField m "id" with
    | none =>
      simp only [goodNodeK, hg] at hm
      exact Bool.noConfusion hm
    | some i =>
      cases hk : toKey i with
      | error msg =>
        simp only [goodNodeK, hg, hk] at hm
        exact Bool.noConfusion hm
      | ok k =>
        rw [List.cons_append]
        simp only [buildInDegree, hg, hk]
        exact ih rest n _ (fun x hx => hpre x (by simp [hx])) hbad

theorem nodeKeys_cons_of_good (n : JVal) (rest : List JVal) (i : JVal)
    (k : PyKey) (hf : getField n "id" = some i) (hk : toKey i = .ok k) :
    nodeKeys (n :: rest) = k :: nodeKeys rest := by
  simp [nodeKeys, hf, hk, Except.toOption]

theorem buildInDegree_spec (nodes : List JVal) :
    ∀ (ind res : PyDict Int), buildInDegree nodes ind = .ok res →
    (∀ v, v ∈ akeys res ↔ v ∈ akeys ind ∨ v ∈ nodeKeys nodes) ∧
    (∀ v, alookup res v =
      if v ∈ nodeKeys nodes then some 0 else alookup ind v) ∧
    ((akeys ind).Nodup → (akeys res).Nodup) := by
  induction nodes with
  | nil =>
    intro ind res h
    simp [buildInDegree] at h
    subst h
    simp [nodeKeys]
  | cons n rest ih =>
    intro ind res h
    cases hf : getField n "id" with
    | none => simp [buildInDegree, hf] at h
    | some i =>
      cases hk : toKey i with
      | error m => simp [buildInDegree, hf, hk] at h
      | ok k =>
        simp only [buildInDegree, hf, hk] at h
        obtain ⟨h1, h2, h3⟩ := ih (dinsert ind k 0) res h
        have hIds : nodeKeys (n :: rest) = k :: nodeKeys rest :=
          nodeKeys_cons_of_good n rest i k hf hk
        refine ⟨?_, ?_, ?_⟩
        · intro v
          rw [h1 v, mem_akeys_dinsert, hIds]
          simp
          tauto
        · intro v
          rw [h2 v, hIds]
          by_cases hv : v ∈ nodeKeys rest
          · simp [hv]
          · by_cases hvi : v = k
            · subst hvi
              simp [hv, alookup_dinsert_self]
            · simp [hv, hvi, alookup_dinsert_ne ind k v 0 hvi]
        · intro hnd
          exact h3 (akeys_dinsert_nodup ind k 0 hnd)

theorem buildInDegree_keys_nodup (nodes : List JVal) (res : PyDict Int)
    (h : buildInDegree nodes [] = .ok res) : (akeys res).Nodup :=
  (buildInDegree_spec nodes [] res h).2.2 (by simp [akeys])

theorem buildInDegree_mem_keys (nodes : List JVal) (res : PyDict Int)
    (h : buildInDegree nodes [] = .ok res) :
    ∀ v, v ∈ akeys res ↔ v ∈ nodeKeys nodes := by
  intro v
  rw [((buildInDegree_spec nodes [] res h).1 v)]
  simp [akeys]

theorem buildInDegree_values (nodes : List JVal) (res : PyDict Int)
    (h : buildInDegree nodes [] = .ok res) :
    ∀ v ∈ akeys res, alookup res v = some 0 := by
  intro v hv
  rw [((buildInDegree_spec nodes [] res h).2.1 v)]
  simp [(buildInDegree_mem_keys nodes res h v).mp hv]

theorem nodeKeys_length_of_wf (nodes : List JVal)
    (hwf : ∀ n ∈ nodes, goodNodeK n = true) :
    (nodeKeys nodes).length = nodes.length := by
  induction nodes with
  | nil => simp [nodeKeys]
  | cons n rest ih =>
    have hn := hwf n (by simp)
    cases hf : getField n "id" with
    | none =>
      simp only [goodNodeK, hf] at hn
      exact Bool.noConfusion hn
    | some i =>
      cases hk : toKey i with
      | error m =>
        simp only [goodNodeK, hf, hk] at hn
        exact Bool.noConfusion hn
      | ok k =>
        rw [nodeKeys_cons_of_good n rest i k hf hk]
        simp [ih (fun m hm => hwf m (by simp [hm]))]

theorem buildInDegree_keys_perm_dedup (nodes : List JVal) (res : PyDict Int)
    (h : buildInDegree nodes [] = .ok res) :
    (akeys res).Perm (nodeKeys nodes).dedup := by
  rw [List.perm_ext_iff_of_nodup (buildInDegree_keys_nodup nodes res h)
    (List.nodup_dedup _)]
  intro v
  rw [buildInDegree_mem_keys nodes res h v, List.mem_dedup]

theorem buildInDegree_keys_length_le (nodes : List JVal) (res : PyDict Int)
    (h : buildInDegree nodes [] = .ok res) :
    (akeys res).length ≤ nodes.length := by
  calc (akeys res).length = (nodeKeys nodes).dedup.length :=
        (buildInDegree_keys_perm_dedup nodes res h).length_eq
    _ ≤ (nodeKeys nodes).length := (List.dedup_sublist _).length_le
    _ ≤ nodes.length := List.length_filterMap_le _ _

theorem buildInDegree_keys_length_eq (nodes : List JVal) (res : PyDict Int)
    (h : buildInDegree nodes [] = .ok res)
    (hwf : ∀ n ∈ nodes, goodNodeK n = true)
    (hnd : (nodeKeys nodes).Nodup) :
    (akeys res).length = nodes.length := by
  rw [(buildInDegree_keys_perm_dedup nodes res h).length_eq,
    List.dedup_eq_self.mpr hnd, nodeKeys_length_of_wf nodes hwf]

theorem buildInDegree_keys_length_lt (nodes : List JVal) (res : PyDict Int)
    (h : buildInDegree nodes [] = .ok res)
    (hwf : ∀ n ∈ nodes, goodNodeK n = true)
    (hdup : ¬ (nodeKeys nodes).Nodup) :
    (akeys res).length < nodes.length := by
  rw [(buildInDegree_keys_perm_dedup nodes res h).length_eq]
  rw [← nodeKeys_length_of_wf nodes hwf]
  rcases Nat.lt_or_ge (nodeKeys nodes).dedup.length (nodeKeys nodes).length
    with hlt | hge
  · exact hlt
  · exfalso
    have heq := (List.dedup_sublist (nodeKeys nodes)).eq_of_length_le hge
    exact hdup (List.dedup_eq_self.mp heq)

/-! ## Extracted edges -/

/-- Endpoint key pair of an edge record, when it is a record carrying both
`source` and `target` with hashable values. -/
def extractEdge (e : JVal) : Option (PyKey × PyKey) :=
  match getField e "source", getField e "target" with
  | some s, some t =>
    match toKey s, toKey t with
    | .ok ks, .ok kt => some (ks, kt)
    | _, _ => none
  | _, _ => none

/-- Endpoint key pairs of all well-shaped hashable edge records, in
sequence order. -/
def extractEdges (edges : List JVal) : List (PyKey × PyKey) :=
  edges.filterMap extractEdge

/-- Targets of the edges leaving `u`, in edge order (the adjacency list
`graph[u]` built by `is_dag`). -/
def targetsOf (E : List (PyKey × PyKey)) (u : PyKey) : List PyKey :=
  (E.filter (fun p => decide (p.1 = u))).map Prod.snd

/-- Number of copies of the edge `u ⟶ v` in the edge-pair list. -/
def edgeCount (E : List (PyKey × PyKey)) (u v : PyKey) : Nat :=
  E.countP (fun p => decide (p.1 = u) && decide (p.2 = v))

/-- Number of occurrences of a key in a list. -/
def occCount (l : List PyKey) (v : PyKey) : Nat :=
  l.countP (fun x => decide (x = v))

/-- Number of incoming edges of `v`. -/
def inCount (E : List (PyKey × PyKey)) (v : PyKey) : Nat :=
  E.countP (fun p => decide (p.2 = v))

/-- Number of incoming edges of `v` whose source is not among `done` (the
in-degree of `v` left after removing the processed nodes `done`). -/
def remIn (E : List (PyKey × PyKey)) (done : List PyKey) (v : PyKey) : Nat :=
  E.countP (fun p => decide (p.1 ∉ done) && decide (p.2 = v))

theorem extractEdge_eq_some (e : JVal) (a b : PyKey) :
    extractEdge e = some (a, b) ↔
      ∃ s t, getField e "source" = some s ∧ getField e "target" = some t ∧
        toKey s = .ok a ∧ toKey t = .ok b := by
  cases hs : getField e "source" with
  | none => simp [extractEdge, hs]
  | some s =>
    cases ht : getField e "target" with
    | none => simp [extractEdge, hs, ht]
    | some t =>
      cases hks : toKey s with
      | error m => simp [extractEdge, hs, ht, hks]
      | ok ks =>
        cases hkt : toKey t with
        | error m => simp [extractEdge, hs, ht, hks, hkt]
        | ok kt => simp [extractEdge, hs, ht, hks, hkt, Prod.ext_iff]

theorem mem_extractEdges (edges : List JVal) (a b : PyKey) :
    (a, b) ∈ extractEdges edges ↔ edgeRelK edges a b := by
  rw [extractEdges, List.mem_filterMap, edgeRelK]
  constructor
  · rintro ⟨e, he, hx⟩
    exact ⟨e, he, (extractEdge_eq_some e a b).mp hx⟩
  · rintro ⟨e, he, hfields⟩
    exact ⟨e, he, (extractEdge_eq_some e a b).mpr hfields⟩

theorem extractEdges_cons_of_some (e : JVal) (rest : List JVal)
    (ks kt : PyKey) (h : extractEdge e = some (ks, kt)) :
    extractEdges (e :: rest) = (ks, kt) :: extractEdges rest := by
  simp [extractEdges, h]

theorem mem_targetsOf (E : List (PyKey × PyKey)) (u w : PyKey) :
    w ∈ targetsOf E u ↔ (u, w) ∈ E := by
  simp only [targetsOf, List.mem_map, List.mem_filter, decide_eq_true_eq]
  constructor
  · rintro ⟨⟨a, b⟩, ⟨hmem, rfl⟩, rfl⟩
    exact hmem
  · intro h
    exact ⟨(u, w), ⟨h, rfl⟩, rfl⟩

theorem targetsOf_cons (E : List (PyKey × PyKey)) (s t u : PyKey) :
    targetsOf ((s, t) :: E) u =
      (if s = u then [t] else []) ++ targetsOf E u := by
  by_cases h : s = u <;> simp [targetsOf, h]

theorem occCount_targetsOf (E : List (PyKey × PyKey)) (u v : PyKey) :
    occCount (targetsOf E u) v = edgeCount E u v := by
  rw [occCount, targetsOf, List.countP_map, List.countP_filter, edgeCount]
  apply List.countP_congr
  intro p _
  simp [Function.comp, Bool.and_comm]

theorem occCount_pos (l : List PyKey) (v : PyKey) :
    0 < occCount l v ↔ v ∈ l := by
  rw [occCount, List.countP_pos]
  simp

theorem inCount_cons (E : List (PyKey × PyKey)) (s t v : PyKey) :
    inCount ((s, t) :: E) v = inCount E v + if t = v then 1 else 0 := by
  by_cases h : t = v <;> simp [inCount, List.countP_cons, h]

/-! ## Lemmas about the edge loop of `is_dag` -/

theorem buildGraph_cons_eq (e : JVal) (rest : List JVal)
    (g : PyDict (List PyKey)) (ind : PyDict Int) (s t : JVal)
    (hs : getField e "source" = some s) (ht : getField e "target" = some t) :
    buildGraph (e :: rest) g ind =
      (match toKey s with
       | .error m => .exc m
       | .ok ks =>
         if (alookup ind ks).isSome then
           match toKey t with
           | .error m => .exc m
           | .ok kt =>
             if (alookup ind kt).isSome then
               buildGraph rest
                 (dinsert g ks (((alookup g ks).getD []) ++ [kt]))
                 (dinsert ind kt (((alookup ind kt).getD 0) + 1))
             else .failed
         else .failed) := by
  rw [buildGraph, hs, ht]

theorem buildGraph_cons_bad_src (e : JVal) (rest : List JVal)
    (g : PyDict (List PyKey)) (ind : PyDict Int)
    (hs : getField e "source" = none) :
    buildGraph (e :: rest) g ind = .failed := by
  rw [buildGraph, hs]

theorem buildGraph_cons_bad_tgt (e : JVal) (rest : List JVal)
    (g : PyDict (List PyKey)) (ind : PyDict Int) (s : JVal)
    (hs : getField e "source" = some s) (ht : getField e "target" = none) :
    buildGraph (e :: rest) g ind = .failed := by
  rw [buildGraph, hs, ht]

theorem buildGraph_keys (edges : List JVal) :
    ∀ g ind g' ind', buildGraph edges g ind = .ok (g', ind') →
    akeys ind' = akeys ind := by
  induction edges with
  | nil =>
    intro g ind g' ind' h
    simp [buildGraph] at h
    rw [h.2]
  | cons e rest ih =>
    intro g ind g' ind' h
    cases hs : getField e "source" with
    | none => rw [buildGraph_cons_bad_src e rest g ind hs] at h; cases h
    | some s =>
      cases ht : getField e "target" with
      | none => rw [buildGraph_cons_bad_tgt e rest g ind s hs ht] at h; cases h
      | some t =>
        rw [buildGraph_cons_eq e rest g ind s t hs ht] at h
        cases hks : toKey s with
        | error m => simp only [hks] at h; cases h
        | ok ks =>
          simp only [hks] at h
          by_cases hmem : ((alookup ind ks).isSome = true)
          · rw [if_pos hmem] at h
            cases hkt : toKey t with
            | error m => simp only [hkt] at h; cases h
            | ok kt =>
              simp only [hkt] at h
              by_cases hmt : ((alookup ind kt).isSome = true)
              · rw [if_pos hmt] at h
                have hmemk : kt ∈ akeys ind := by
                  rw [mem_akeys_iff_isSome]; exact hmt
                rw [ih _ _ _ _ h, akeys_dinsert_of_mem _ _ _ hmemk]
              · rw [if_neg hmt] at h; cases h
          · rw [if_neg hmem] at h; cases h

theorem buildGraph_ok_iff (edges : List JVal) :
    ∀ g ind, (∃ res, buildGraph edges g ind = .ok res) ↔
      ∀ e ∈ edges, goodEdgeK (akeys ind) e = true := by
  induction edges with
  | nil => intro g ind; simp [buildGraph]
  | cons e rest ih =>
    intro g ind
    cases hs : getField e "source" with
    | none =>
      rw [buildGraph_cons_bad_src e rest g ind hs]
      constructor
      · rintro ⟨res, h⟩; cases h
      · intro h
        have hb := h e (by simp)
        simp only [goodEdgeK, hs] at hb
        exact Bool.noConfusion hb
    | some s =>
      cases ht : getField e "target" with
      | none =>
        rw [buildGraph_cons_bad_tgt e rest g ind s hs ht]
        constructor
        · rintro ⟨res, h⟩; cases h
        · intro h
          have hb := h e (by simp)
          simp only [goodEdgeK, hs, ht] at hb
          exact Bool.noConfusion hb
      | some t =>
        rw [buildGraph_cons_eq e rest g ind s t hs ht]
        cases hks : toKey s with
        | error m =>
          constructor
          · rintro ⟨res, h⟩
            simp only [hks] at h
            cases h
          · intro h
            have hb := h e (by simp)
            simp only [goodEdgeK, hs, ht, hks] at hb
            exact Bool.noConfusion hb
        | ok ks =>
          by_cases hmem : ((alookup ind ks).isSome = true)
          · cases hkt : toKey t with
            | error m =>
              constructor
              · rintro ⟨res, h⟩
                simp only [hks, hkt, if_pos hmem] at h
                cases h
              · intro h
                have hb := h e (by simp)
                simp only [goodEdgeK, hs, ht, hks, hkt] at hb
                exact Bool.noConfusion hb
            | ok kt =>
              by_cases hmt : ((alookup ind kt).isSome = true)
              · have hmemks : ks ∈ akeys ind := by
                  rw [mem_akeys_iff_isSome]; exact hmem
                have hmemkt : kt ∈ akeys ind := by
                  rw [mem_akeys_iff_isSome]; exact hmt
                simp only [hks, hkt, if_pos hmem, if_pos hmt]
                rw [ih, akeys_dinsert_of_mem _ _ _ hmemkt]
                constructor
                · intro h f hf
                  rcases List.mem_cons.mp hf with rfl | hf'
                  · simp [goodEdgeK, hs, ht, hks, hkt, hmemks, hmemkt]
                  · exact h f hf'
                · intro h f hf
                  exact h f (List.mem_cons_of_mem _ hf)
              · simp only [hks, hkt, if_pos hmem, if_neg hmt]
                constructor
                · rintro ⟨res, h⟩; cases h
                · intro h
                  have hb := h e (by simp)
                  simp only [goodEdgeK, hs, ht, hks, hkt] at hb
                  have h2 := (Bool.and_eq_true_iff.mp hb).2
                  rw [decide_eq_true_eq, mem_akeys_iff_isSome] at h2
                  exact absurd h2 hmt
          · simp only [hks, if_neg hmem]
            constructor
            · rintro ⟨res, h⟩; cases h
            · intro h
              have hb := h e (by simp)
              simp only [goodEdgeK, hs, ht, hks] at hb
              cases hkt : toKey t with
              | error m =>
                simp only [hkt] at hb
                exact Bool.noConfusion hb
              | ok kt =>
                simp only [hkt] at hb
                have h1 := (Bool.and_eq_true_iff.mp hb).1
                rw [decide_eq_true_eq, mem_akeys_iff_isSome] at h1
                exact absurd h1 hmem

theorem buildGraph_failed_of (edges : List JVal) :
    ∀ g ind, (∀ e ∈ edges, noRaiseEdge e = true) →
    (∃ e ∈ edges, goodEdgeK (akeys ind) e = false) →
    buildGraph edges g ind = .failed := by
  induction edges with
  | nil =>
    intro g ind _ hbad
    obtain ⟨e, he, _⟩ := hbad
    simp at he
  | cons e0 rest ih =>
    intro g ind hnr hbad
    cases hs : getField e0 "source" with
    | none => exact buildGraph_cons_bad_src e0 rest g ind hs
    | some s =>
      cases ht : getField e0 "target" with
      | none => exact buildGraph_cons_bad_tgt e0 rest g ind s hs ht
      | some t =>
        have hnr0 := hnr e0 (by simp)
        simp only [noRaiseEdge, hs, ht] at hnr0
        cases hks : toKey s with
        | error m => simp [hks] at hnr0
        | ok ks =>
          cases hkt : toKey t with
          | error m => simp [hks, hkt] at hnr0
          | ok kt =>
            rw [buildGraph_cons_eq e0 rest g ind s t hs ht]
            simp only [hks, hkt]
            by_cases hmem : ((alookup ind ks).isSome = true)
            · rw [if_pos hmem]
              by_cases hmt : ((alookup ind kt).isSome = true)
              · rw [if_pos hmt]
                have hmemks : ks ∈ akeys ind := by
                  rw [mem_akeys_iff_isSome]; exact hmem
                have hmemkt : kt ∈ akeys ind := by
                  rw [mem_akeys_iff_isSome]; exact hmt
                apply ih
                · intro f hf
                  exact hnr f (by simp [hf])
                · obtain ⟨f, hfmem, hfbad⟩ := hbad
                  rcases List.mem_cons.mp hfmem with rfl | hf'
                  · exfalso
                    simp only [goodEdgeK, hs, ht, hks, hkt] at hfbad
                    simp [hmemks, hmemkt] at hfbad
                  · refine ⟨f, hf', ?_⟩
                    rwa [akeys_dinsert_of_mem _ _ _ hmemkt]
              · rw [if_neg hmt]
            · rw [if_neg hmem]

theorem buildGraph_adj (edges : List JVal) :
    ∀ g ind g' ind', buildGraph edges g ind = .ok (g', ind') →
    ∀ u, (alookup g' u).getD [] =
      (alookup g u).getD [] ++ targetsOf (extractEdges edges) u := by
  induction edges with
  | nil =>
    intro g ind g' ind' h u
    simp [buildGraph] at h
    rw [← h.1]
    simp [extractEdges, targetsOf]
  | cons e rest ih =>
    intro g ind g' ind' h u
    cases hs : getField e "source" with
    | none => rw [buildGraph_cons_bad_src e rest g ind hs] at h; cases h
    | some s =>
      cases ht : getField e "target" with
      | none => rw [buildGraph_cons_bad_tgt e rest g ind s hs ht] at h; cases h
      | some t =>
        rw [buildGraph_cons_eq e rest g ind s t hs ht] at h
        cases hks : toKey s with
        | error m => simp only [hks] at h; cases h
        | ok ks =>
          simp only [hks] at h
          by_cases hmem : ((alookup ind ks).isSome = true)
          · rw [if_pos hmem] at h
            cases hkt : toKey t with
            | error m => simp only [hkt] at h; cases h
            | ok kt =>
              simp only [hkt] at h
              by_cases hmt : ((alookup ind kt).isSome = true)
              · rw [if_pos hmt] at h
                have hE : extractEdges (e :: rest) = (ks, kt) :: extractEdges rest :=
                  extractEdges_cons_of_some e rest ks kt
                    ((extractEdge_eq_some e ks kt).mpr ⟨s, t, hs, ht, hks, hkt⟩)
                rw [hE, targetsOf_cons]
                have step := ih _ _ _ _ h u
                by_cases hu : u = ks
                · subst hu
                  rw [step, alookup_dinsert_self]
                  simp
                · rw [step, alookup_dinsert_ne _ _ _ _ hu]
                  have hsu : ¬ (ks = u) := fun hh => hu hh.symm
                  simp [hsu]
              · rw [if_neg hmt] at h; cases h
          · rw [if_neg hmem] at h; cases h

theorem buildGraph_ind_values (edges : List JVal) :
    ∀ g ind g' ind', buildGraph edges g ind = .ok (g', ind') →
    ∀ v, alookup ind' v =
      (alookup ind v).map
        (fun d => d + (inCount (extractEdges edges) v : Int)) := by
  induction edges with
  | nil =>
    intro g ind g' ind' h v
    simp [buildGraph] at h
    rw [← h.2]
    simp [extractEdges, inCount]
  | cons e rest ih =>
    intro g ind g' ind' h v
    cases hs : getField e "source" with
    | none => rw [buildGraph_cons_bad_src e rest g ind hs] at h; cases h
    | some s =>
      cases ht : getField e "target" with
      | none => rw [buildGraph_cons_bad_tgt e rest g ind s hs ht] at h; cases h
      | some t =>
        rw [buildGraph_cons_eq e rest g ind s t hs ht] at h
        cases hks : toKey s with
        | error m => simp only [hks] at h; cases h
        | ok ks =>
          simp only [hks] at h
          by_cases hmem : ((alookup ind ks).isSome = true)
          · rw [if_pos hmem] at h
            cases hkt : toKey t with
            | error m => simp only [hkt] at h; cases h
            | ok kt =>
              simp only [hkt] at h
              by_cases hmt : ((alookup ind kt).isSome = true)
              · rw [if_pos hmt] at h
                have hE : extractEdges (e :: rest) = (ks, kt) :: extractEdges rest :=
                  extractEdges_cons_of_some e rest ks kt
                    ((extractEdge_eq_some e ks kt).mpr ⟨s, t, hs, ht, hks, hkt⟩)
                rw [hE]
                have step := ih _ _ _ _ h v
                obtain ⟨d0, hd0⟩ := Option.isSome_iff_exists.mp hmt
                by_cases hv : v = kt
                · subst hv
                  rw [alookup_dinsert_self, hd0] at step
                  simp only [Option.getD_some] at step
                  rw [step, hd0, inCount_cons, if_pos rfl]
                  simp only [Option.map_some']
                  congr 1
                  push_cast
                  ring
                · rw [step, alookup_dinsert_ne _ _ _ _ hv, inCount_cons]
                  have htv : ¬ (kt = v) := fun hh => hv hh.symm
                  simp [htv]
              · rw [if_neg hmt] at h; cases h
          · rw [if_neg hmem] at h; cases h
/-! ## Specification of the inner loop of Kahn's algorithm -/

theorem occCount_cons (x v : PyKey) (l : List PyKey) :
    occCount (x :: l) v = occCount l v + if x = v then 1 else 0 := by
  by_cases h : x = v <;> simp [occCount, List.countP_cons, h]

theorem occCount_eq_zero (l : List PyKey) (v : PyKey) :
    occCount l v = 0 ↔ v ∉ l := by
  constructor
  · intro h hv
    have := (occCount_pos l v).mpr hv
    omega
  · intro h
    by_contra hne
    exact h ((occCount_pos l v).mp (Nat.pos_of_ne_zero hne))

theorem processNeighbors_spec (nbs : List PyKey) :
    ∀ (ind : PyDict Int) (queue : List PyKey),
    (∀ v ∈ nbs, (alookup ind v).isSome = true) →
    (∀ v d, v ∈ nbs → alookup ind v = some d → (occCount nbs v : Int) ≤ d) →
    (∀ v, alookup (processNeighbors nbs ind queue).1 v =
      (alookup ind v).map (fun d => d - (occCount nbs v : Int))) ∧
    akeys (processNeighbors nbs ind queue).1 = akeys ind ∧
    ∃ enq, (processNeighbors nbs ind queue).2 = queue ++ enq ∧ enq.Nodup ∧
      (∀ v, v ∈ enq ↔ v ∈ nbs ∧ alookup ind v = some ((occCount nbs v : Int))) := by
  induction nbs with
  | nil =>
    intro ind queue h1 h2
    refine ⟨?_, rfl, [], ?_, ?_, ?_⟩
    · intro v
      cases h : alookup ind v <;> simp [processNeighbors, occCount, h]
    · simp [processNeighbors]
    · simp
    · intro v
      simp
  | cons nb rest ih =>
    intro ind queue h1 h2
    obtain ⟨d0, hd0⟩ := Option.isSome_iff_exists.mp (h1 nb (by simp))
    have hstep : processNeighbors (nb :: rest) ind queue =
        processNeighbors rest (dinsert ind nb (d0 - 1))
          (if d0 - 1 = 0 then queue ++ [nb] else queue) := by
      rw [processNeighbors, hd0]
      rfl
    have hocc_nb : occCount (nb :: rest) nb = occCount rest nb + 1 := by
      rw [occCount_cons, if_pos rfl]
    have hbound : (occCount rest nb : Int) + 1 ≤ d0 := by
      have := h2 nb d0 (by simp) hd0
      rw [hocc_nb] at this
      push_cast at this
      omega
    set ind2 := dinsert ind nb (d0 - 1) with hind2
    have hlook2 : ∀ v, alookup ind2 v =
        if v = nb then some (d0 - 1) else alookup ind v := by
      intro v
      by_cases hv : v = nb
      · subst hv; rw [if_pos rfl, hind2, alookup_dinsert_self]
      · rw [if_neg hv, hind2, alookup_dinsert_ne _ _ _ _ hv]
    have h1' : ∀ v ∈ rest, (alookup ind2 v).isSome = true := by
      intro v hv
      rw [hlook2 v]
      by_cases hvnb : v = nb
      · simp [hvnb]
      · rw [if_neg hvnb]
        exact h1 v (by simp [hv])
    have h2' : ∀ v d, v ∈ rest → alookup ind2 v = some d →
        (occCount rest v : Int) ≤ d := by
      intro v d hv hvd
      rw [hlook2 v] at hvd
      by_cases hvnb : v = nb
      · rw [if_pos hvnb] at hvd
        subst hvnb
        have hd : d = d0 - 1 := by
          have := Option.some.inj hvd
          omega
        subst hd
        omega
      · rw [if_neg hvnb] at hvd
        have := h2 v d (by simp [hv]) hvd
        rw [occCount_cons, if_neg (fun hh => hvnb hh.symm)] at this
        push_cast at this
        omega
    obtain ⟨ihl, ihk, enq2, ihq, ihnd, ihchar⟩ :=
      ih ind2 (if d0 - 1 = 0 then queue ++ [nb] else queue) h1' h2'
    have hocc_other : ∀ v, v ≠ nb → occCount (nb :: rest) v = occCount rest v := by
      intro v hv
      rw [occCount_cons, if_neg (fun hh => hv hh.symm)]
      omega
    refine ⟨?_, ?_, ?_⟩
    · intro v
      rw [hstep, ihl v, hlook2 v]
      by_cases hv : v = nb
      · subst hv
        rw [if_pos rfl, hd0, hocc_nb]
        simp only [Option.map_some']
        congr 1
        push_cast
        ring
      · rw [if_neg hv, hocc_other v hv]
    · rw [hstep, ihk, hind2]
      apply akeys_dinsert_of_mem
      rw [mem_akeys_iff_isSome]
      exact h1 nb (by simp)
    · by_cases hz : d0 - 1 = 0
      · rw [if_pos hz] at ihq
        have hnb_not_rest : nb ∉ rest := by
          rw [← occCount_eq_zero]
          omega
        refine ⟨nb :: enq2, ?_, ?_, ?_⟩
        · rw [hstep, if_pos hz, ihq, List.append_assoc]
          rfl
        · rw [List.nodup_cons]
          refine ⟨?_, ihnd⟩
          intro hmem
          exact hnb_not_rest ((ihchar nb).mp hmem).1
        · intro v
          by_cases hv : v = nb
          · subst hv
            simp only [List.mem_cons, true_or, true_iff]
            refine ⟨by simp, ?_⟩
            rw [hd0, hocc_nb]
            have hv0 : occCount rest v = 0 := by omega
            rw [hv0]
            congr 1
            omega
          · rw [List.mem_cons]
            constructor
            · intro hh
              rcases hh with hh | hh
              · exact absurd hh hv
              · obtain ⟨hr, hl⟩ := (ihchar v).mp hh
                rw [hlook2 v, if_neg hv] at hl
                exact ⟨by simp [hr], by rw [hocc_other v hv]; exact hl⟩
            · intro ⟨hmem, hl⟩
              rcases List.mem_cons.mp hmem with hh | hh
              · exact absurd hh hv
              · refine Or.inr ((ihchar v).mpr ⟨hh, ?_⟩)
                rw [hlook2 v, if_neg hv, hocc_other v hv] at *
                exact hl
      · rw [if_neg hz] at ihq
        refine ⟨enq2, by rw [hstep, if_neg hz, ihq], ihnd, ?_⟩
        intro v
        by_cases hv : v = nb
        · subst hv
          rw [ihchar v]
          constructor
          · intro ⟨hr, hl⟩
            rw [hlook2 v, if_pos rfl] at hl
            have hval : d0 - 1 = (occCount rest v : Int) := Option.some.inj hl
            refine ⟨by simp, ?_⟩
            rw [hd0, hocc_nb]
            congr 1
            push_cast
            omega
          · intro ⟨_, hl⟩
            rw [hd0] at hl
            have hval : d0 = ((occCount (v :: rest) v : Int)) := Option.some.inj hl
            rw [hocc_nb] at hval
            have hmem : v ∈ rest := by
              rw [← occCount_pos]
              push_cast at hval
              omega
            refine ⟨hmem, ?_⟩
            rw [hlook2 v, if_pos rfl]
            congr 1
            push_cast at hval
            omega
        · rw [ihchar v, hlook2 v, if_neg hv, hocc_other v hv]
          constructor
          · intro ⟨hr, hl⟩
            exact ⟨by simp [hr], hl⟩
          · intro ⟨hmem, hl⟩
            rcases List.mem_cons.mp hmem with hh | hh
            · exact absurd hh hv
            · exact ⟨hh, hl⟩

/-! ## Counting lemmas for remaining in-degrees -/

theorem remIn_nil_done (E : List (PyKey × PyKey)) (v : PyKey) :
    remIn E [] v = inCount E v := by
  apply List.countP_congr
  intro p _
  simp

theorem remIn_snoc (E : List (PyKey × PyKey)) (done : List PyKey) (c v : PyKey)
    (hc : c ∉ done) :
    remIn E done v = remIn E (done ++ [c]) v + edgeCount E c v := by
  have hperm := (List.filter_append_perm (fun p : PyKey × PyKey => decide (p.1 = c)) E).symm
  have hsplitL : remIn E done v =
      (E.filter (fun p => decide (p.1 = c))).countP
        (fun p => decide (p.1 ∉ done) && decide (p.2 = v)) +
      (E.filter (fun p => !decide (p.1 = c))).countP
        (fun p => decide (p.1 ∉ done) && decide (p.2 = v)) := by
    rw [remIn, hperm.countP_eq, List.countP_append]
  have hsplitR : remIn E (done ++ [c]) v =
      (E.filter (fun p => decide (p.1 = c))).countP
        (fun p => decide (p.1 ∉ done ++ [c]) && decide (p.2 = v)) +
      (E.filter (fun p => !decide (p.1 = c))).countP
        (fun p => decide (p.1 ∉ done ++ [c]) && decide (p.2 = v)) := by
    rw [remIn, hperm.countP_eq, List.countP_append]
  have hA : (E.filter (fun p => decide (p.1 = c))).countP
      (fun p => decide (p.1 ∉ done) && decide (p.2 = v)) = edgeCount E c v := by
    rw [List.countP_filter, edgeCount]
    apply List.countP_congr
    intro p _
    by_cases h1 : p.1 = c
    · subst h1
      simp [hc]
    · simp [h1]
  have hB : (E.filter (fun p => decide (p.1 = c))).countP
      (fun p => decide (p.1 ∉ done ++ [c]) && decide (p.2 = v)) = 0 := by
    rw [List.countP_eq_zero]
    intro p hp
    rw [List.mem_filter, decide_eq_true_eq] at hp
    simp [hp.2]
  have hC : (E.filter (fun p => !decide (p.1 = c))).countP
      (fun p => decide (p.1 ∉ done ++ [c]) && decide (p.2 = v)) =
      (E.filter (fun p => !decide (p.1 = c))).countP
      (fun p => decide (p.1 ∉ done) && decide (p.2 = v)) := by
    apply List.countP_congr
    intro p hp
    rw [List.mem_filter, Bool.not_eq_true', decide_eq_false_iff_not] at hp
    by_cases hd : p.1 ∈ done <;> simp [hd, hp.2, List.mem_append]
  rw [hsplitL, hsplitR, hA, hB, hC]
  omega

theorem edgeCount_le_remIn (E : List (PyKey × PyKey)) (done : List PyKey)
    (c v : PyKey) (hc : c ∉ done) : edgeCount E c v ≤ remIn E done v := by
  rw [remIn_snoc E done c v hc]
  omega

theorem edgeCount_pos (E : List (PyKey × PyKey)) (u v : PyKey) :
    0 < edgeCount E u v ↔ (u, v) ∈ E := by
  rw [edgeCount, List.countP_pos]
  constructor
  · rintro ⟨⟨a, b⟩, hmem, hp⟩
    simp only [Bool.and_eq_true, decide_eq_true_eq] at hp
    obtain ⟨rfl, rfl⟩ := hp
    exact hmem
  · intro h
    exact ⟨(u, v), h, by simp⟩

theorem remIn_eq_zero_iff (E : List (PyKey × PyKey)) (done : List PyKey) (v : PyKey) :
    remIn E done v = 0 ↔ ∀ p ∈ E, p.2 = v → p.1 ∈ done := by
  rw [remIn, List.countP_eq_zero]
  constructor
  · intro h p hp hv
    by_contra hnd
    exact h p hp (by simp [hnd, hv])
  · intro h p hp hcond
    simp only [Bool.and_eq_true, decide_eq_true_eq] at hcond
    exact hcond.1 (h p hp hcond.2)

theorem remIn_pos_exists (E : List (PyKey × PyKey)) (done : List PyKey) (v : PyKey)
    (h : remIn E done v ≠ 0) : ∃ u, (u, v) ∈ E ∧ u ∉ done := by
  have hpos : 0 < remIn E done v := Nat.pos_of_ne_zero h
  rw [remIn, List.countP_pos] at hpos
  obtain ⟨⟨a, b⟩, hmem, hp⟩ := hpos
  simp only [Bool.and_eq_true, decide_eq_true_eq] at hp
  obtain ⟨ha, rfl⟩ := hp
  exact ⟨a, hmem, ha⟩
/-! ## The Kahn loop invariant -/

/-- Invariant of the `while queue` loop of `is_dag`, over the distinct key
list `V` of the in-degree dictionary and the extracted edge pairs `E`.
`done` is the list of already-processed (dequeued) nodes in order;
the Python code stores only its length, `processed`. -/
structure KInv (V : List PyKey) (E : List (PyKey × PyKey))
    (ind : PyDict Int) (queue done : List PyKey) : Prop where
  keys_eq : akeys ind = V
  done_nd : done.Nodup
  done_sub : ∀ v ∈ done, v ∈ V
  q_nd : queue.Nodup
  q_sub : ∀ v ∈ queue, v ∈ V
  q_done : ∀ v ∈ queue, v ∉ done
  deg : ∀ v ∈ V, alookup ind v = some ((remIn E done v : Int))
  q_char : ∀ v ∈ V, (v ∈ queue ↔ remIn E done v = 0 ∧ v ∉ done)
  topo : ∀ u v, (u, v) ∈ E → v ∈ done →
    ∃ l1 l2, done = l1 ++ v :: l2 ∧ u ∈ l1

theorem kahn_step (V : List PyKey) (E : List (PyKey × PyKey))
    (hE1 : ∀ p ∈ E, p.1 ∈ V) (hE2 : ∀ p ∈ E, p.2 ∈ V)
    (ind : PyDict Int) (c : PyKey) (q done : List PyKey)
    (hinv : KInv V E ind (c :: q) done) :
    KInv V E (processNeighbors (targetsOf E c) ind q).1
      (processNeighbors (targetsOf E c) ind q).2 (done ++ [c]) := by
  have hcV : c ∈ V := hinv.q_sub c (by simp)
  have hcdone : c ∉ done := hinv.q_done c (by simp)
  have hcq : c ∉ q := by
    have := hinv.q_nd
    rw [List.nodup_cons] at this
    exact this.1
  have hrem0 : remIn E done c = 0 :=
    ((hinv.q_char c hcV).mp (by simp)).1
  have hnbs_mem : ∀ v, v ∈ targetsOf E c ↔ (c, v) ∈ E := fun v =>
    mem_targetsOf E c v
  have hnbsV : ∀ v ∈ targetsOf E c, v ∈ V := by
    intro v hv
    exact hE2 (c, v) ((hnbs_mem v).mp hv)
  have h1 : ∀ v ∈ targetsOf E c, (alookup ind v).isSome = true := by
    intro v hv
    rw [hinv.deg v (hnbsV v hv)]
    rfl
  have hocc : ∀ v, occCount (targetsOf E c) v = edgeCount E c v := fun v =>
    occCount_targetsOf E c v
  have h2 : ∀ v d, v ∈ targetsOf E c → alookup ind v = some d →
      (occCount (targetsOf E c) v : Int) ≤ d := by
    intro v d hv hvd
    rw [hinv.deg v (hnbsV v hv)] at hvd
    have hd : d = ((remIn E done v : Int)) := (Option.some.inj hvd).symm
    subst hd
    rw [hocc v]
    have := edgeCount_le_remIn E done c v hcdone
    push_cast
    omega
  obtain ⟨pnl, pnk, enq, pnq, pnnd, pnchar⟩ :=
    processNeighbors_spec (targetsOf E c) ind q h1 h2
  have henq_mem : ∀ v ∈ enq, (c, v) ∈ E ∧ remIn E done v = edgeCount E c v := by
    intro v hv
    obtain ⟨hvnbs, hvl⟩ := (pnchar v).mp hv
    refine ⟨(hnbs_mem v).mp hvnbs, ?_⟩
    have hvV : v ∈ V := hnbsV v hvnbs
    rw [hinv.deg v hvV] at hvl
    have := Option.some.inj hvl
    rw [hocc v] at this
    omega
  have henq_not_done : ∀ v ∈ enq, v ∉ done ∧ v ≠ c := by
    intro v hv
    obtain ⟨hedge, _⟩ := henq_mem v hv
    constructor
    · intro hvdone
      obtain ⟨l1, l2, heq, hcl1⟩ := hinv.topo c v hedge hvdone
      apply hcdone
      rw [heq]
      exact List.mem_append_left _ hcl1
    · intro hvc
      subst hvc
      have h1' := (edgeCount_pos E v v).mpr hedge
      have h2' := edgeCount_le_remIn E done v v hcdone
      omega
  have henq_not_q : ∀ v ∈ enq, v ∉ q := by
    intro v hv hvq
    obtain ⟨hedge, hrem⟩ := henq_mem v hv
    have hvV : v ∈ V := hE2 (c, v) hedge
    have := ((hinv.q_char v hvV).mp (by simp [hvq])).1
    have hpos := (edgeCount_pos E c v).mpr hedge
    omega
  have hnewdeg : ∀ v ∈ V, remIn E done v = remIn E (done ++ [c]) v + edgeCount E c v :=
    fun v _ => remIn_snoc E done c v hcdone
  constructor
  case keys_eq => rw [pnk, hinv.keys_eq]
  case done_nd =>
    rw [List.nodup_append]
    exact ⟨hinv.done_nd, List.nodup_singleton c, by
      intro a ha hb
      rw [List.mem_singleton] at hb
      subst hb
      exact hcdone ha⟩
  case done_sub =>
    intro v hv
    rcases List.mem_append.mp hv with hv | hv
    · exact hinv.done_sub v hv
    · rw [List.mem_singleton] at hv
      subst hv
      exact hcV
  case q_nd =>
    rw [pnq, List.nodup_append]
    refine ⟨?_, pnnd, ?_⟩
    · have := hinv.q_nd
      rw [List.nodup_cons] at this
      exact this.2
    · intro a ha hb
      exact henq_not_q a hb ha
  case q_sub =>
    intro v hv
    rw [pnq] at hv
    rcases List.mem_append.mp hv with hv | hv
    · exact hinv.q_sub v (by simp [hv])
    · exact hnbsV v ((pnchar v).mp hv).1
  case q_done =>
    intro v hv
    rw [pnq] at hv
    rw [List.mem_append, List.mem_singleton]
    rcases List.mem_append.mp hv with hv | hv
    · push_neg
      refine ⟨hinv.q_done v (by simp [hv]), ?_⟩
      intro hvc
      subst hvc
      exact hcq hv
    · push_neg
      have := henq_not_done v hv
      exact ⟨this.1, this.2⟩
  case deg =>
    intro v hvV
    rw [pnl v, hinv.deg v hvV]
    simp only [Option.map_some']
    congr 1
    rw [hocc v]
    have := hnewdeg v hvV
    push_cast
    omega
  case q_char =>
    intro v hvV
    rw [pnq, List.mem_append]
    have hsplit := hnewdeg v hvV
    constructor
    · intro hv
      rcases hv with hv | hv
      · obtain ⟨hz, hnd⟩ := (hinv.q_char v hvV).mp (by simp [hv])
        have hele : edgeCount E c v ≤ remIn E done v :=
          edgeCount_le_remIn E done c v hcdone
        refine ⟨by omega, ?_⟩
        rw [List.mem_append, List.mem_singleton]
        push_neg
        refine ⟨hnd, ?_⟩
        intro hvc
        subst hvc
        exact hcq hv
      · obtain ⟨_, hrem⟩ := henq_mem v hv
        obtain ⟨hnd, hnc⟩ := henq_not_done v hv
        refine ⟨by omega, ?_⟩
        rw [List.mem_append, List.mem_singleton]
        push_neg
        exact ⟨hnd, hnc⟩
    · rintro ⟨hz, hnd⟩
      rw [List.mem_append, List.mem_singleton] at hnd
      push_neg at hnd
      obtain ⟨hndone, hnc⟩ := hnd
      by_cases hec : edgeCount E c v = 0
      · left
        have : remIn E done v = 0 := by omega
        have hvq := (hinv.q_char v hvV).mpr ⟨this, hndone⟩
        rcases List.mem_cons.mp hvq with hvc | hvq'
        · exact absurd hvc hnc
        · exact hvq'
      · right
        apply (pnchar v).mpr
        have hedge : (c, v) ∈ E := (edgeCount_pos E c v).mp (by omega)
        refine ⟨(hnbs_mem v).mpr hedge, ?_⟩
        rw [hinv.deg v hvV, hocc v]
        congr 1
        omega
  case topo =>
    intro u v hedge hvdone
    rcases List.mem_append.mp hvdone with hv | hv
    · obtain ⟨l1, l2, heq, hu⟩ := hinv.topo u v hedge hv
      exact ⟨l1, l2 ++ [c], by rw [heq, List.append_assoc, List.cons_append], hu⟩
    · rw [List.mem_singleton] at hv
      subst hv
      refine ⟨done, [], rfl, ?_⟩
      have := (remIn_eq_zero_iff E done v).mp hrem0 (u, v) hedge rfl
      exact this

/-! ## Running the Kahn loop -/

theorem kahnLoop_zero (graph : PyDict (List PyKey)) (ind : PyDict Int)
    (queue : List PyKey) (processed : Nat) :
    kahnLoop graph 0 ind queue processed = processed := rfl

theorem kahnLoop_nil (graph : PyDict (List PyKey)) (fuel : Nat)
    (ind : PyDict Int) (processed : Nat) :
    kahnLoop graph (fuel + 1) ind [] processed = processed := rfl

theorem kahnLoop_cons (graph : PyDict (List PyKey)) (fuel : Nat)
    (ind : PyDict Int) (c : PyKey) (q : List PyKey) (processed : Nat) :
    kahnLoop graph (fuel + 1) ind (c :: q) processed =
      kahnLoop graph fuel
        (processNeighbors ((alookup graph c).getD []) ind q).1
        (processNeighbors ((alookup graph c).getD []) ind q).2
        (processed + 1) := rfl

theorem kahnLoop_run (V : List PyKey) (E : List (PyKey × PyKey))
    (graph : PyDict (List PyKey))
    (hE1 : ∀ p ∈ E, p.1 ∈ V) (hE2 : ∀ p ∈ E, p.2 ∈ V)
    (hG : ∀ u, (alookup graph u).getD [] = targetsOf E u) :
    ∀ (fuel : Nat) (ind : PyDict Int) (queue done : List PyKey),
    KInv V E ind queue done → V.length ≤ fuel + done.length →
    ∃ ind' done', KInv V E ind' [] done' ∧
      kahnLoop graph fuel ind queue done.length = done'.length := by
  intro fuel
  induction fuel with
  | zero =>
    intro ind queue done hinv hlen
    have hsubperm : done.Subperm V :=
      List.Nodup.subperm hinv.done_nd (fun a ha => hinv.done_sub a ha)
    have hperm : done.Perm V :=
      hsubperm.perm_of_length_le (by omega)
    have hq : queue = [] := by
      cases queue with
      | nil => rfl
      | cons x xs =>
        exfalso
        have hxV : x ∈ V := hinv.q_sub x (by simp)
        have hxdone : x ∈ done := hperm.mem_iff.mpr hxV
        exact hinv.q_done x (by simp) hxdone
    subst hq
    exact ⟨ind, done, hinv, rfl⟩
  | succ fuel ih =>
    intro ind queue done hinv hlen
    cases queue with
    | nil => exact ⟨ind, done, hinv, rfl⟩
    | cons c q =>
      have hstep := kahn_step V E hE1 hE2 ind c q done hinv
      rw [← hG c] at hstep
      obtain ⟨ind', done', hinv', hrun⟩ :=
        ih _ _ (done ++ [c]) hstep (by simp; omega)
      refine ⟨ind', done', hinv', ?_⟩
      rw [kahnLoop_cons]
      have hup : done.length + 1 = (done ++ [c]).length := by simp
      rw [hup]
      exact hrun

/-! ## Cycles of the extracted edge relation -/

/-- Edge relation on extracted endpoint pairs. -/
def pairRel (E : List (PyKey × PyKey)) (a b : PyKey) : Prop := (a, b) ∈ E

/-- Cycle in the graph given by extracted endpoint pairs. -/
def hasCycleP (E : List (PyKey × PyKey)) : Prop :=
  ∃ a, Relation.TransGen (pairRel E) a a

theorem hasCycleK_iff_pairs (edges : List JVal) :
    hasCycleK edges ↔ hasCycleP (extractEdges edges) := by
  have hrel : edgeRelK edges = pairRel (extractEdges edges) := by
    funext a b
    exact propext (mem_extractEdges edges a b).symm
  rw [hasCycleK, hasCycleP, hrel]

/-- Index of the first occurrence of a value in a list. -/
def firstPos (l : List PyKey) (v : PyKey) : Nat :=
  match l with
  | [] => 0
  | x :: xs => if x = v then 0 else firstPos xs v + 1

theorem firstPos_append_cons (l1 : List PyKey) (v : PyKey) (l2 : List PyKey)
    (h : v ∉ l1) : firstPos (l1 ++ v :: l2) v = l1.length := by
  induction l1 with
  | nil => simp [firstPos]
  | cons x xs ih =>
    have hx : ¬ (x = v) := fun hh => h (by simp [hh])
    have h2 : v ∉ xs := fun hh => h (by simp [hh])
    simp [firstPos, hx, ih h2]

theorem firstPos_lt_of_mem_prefix (l1 : List PyKey) (v : PyKey) (l2 : List PyKey)
    (u : PyKey) (hu : u ∈ l1) : firstPos (l1 ++ v :: l2) u < l1.length := by
  induction l1 with
  | nil => simp at hu
  | cons x xs ih =>
    by_cases hx : x = u
    · simp [firstPos, hx]
    · have hu' : u ∈ xs := by
        rcases List.mem_cons.mp hu with hh | hh
        · exact absurd hh.symm hx
        · exact hh
      simp only [List.cons_append, firstPos, hx, if_false, List.length_cons,
        List.append_eq]
      have := ih hu'
      omega

theorem no_cycle_of_topo (E : List (PyKey × PyKey)) (done : List PyKey)
    (hnd : done.Nodup)
    (htopo : ∀ u v, (u, v) ∈ E → ∃ l1 l2, done = l1 ++ v :: l2 ∧ u ∈ l1) :
    ¬ hasCycleP E := by
  have hedge : ∀ u v, pairRel E u v → firstPos done u < firstPos done v := by
    intro u v h
    obtain ⟨l1, l2, heq, hu⟩ := htopo u v h
    have hvnotl1 : v ∉ l1 := by
      intro hv
      rw [heq, List.nodup_append] at hnd
      exact hnd.2.2 hv (List.mem_cons_self v l2)
    rw [heq, firstPos_append_cons l1 v l2 hvnotl1]
    exact firstPos_lt_of_mem_prefix l1 v l2 u hu
  rintro ⟨a, hcyc⟩
  have hmono : ∀ x y : PyKey, Relation.TransGen (pairRel E) x y →
      firstPos done x < firstPos done y := by
    intro x y h
    induction h with
    | single hrel => exact hedge _ _ hrel
    | tail hstep hrel ih => exact lt_trans ih (hedge _ _ hrel)
  exact lt_irrefl _ (hmono a a hcyc)

theorem exists_min_elem (r : PyKey → PyKey → Prop)
    (htrans : ∀ a b c, r a b → r b c → r a c)
    (hirr : ∀ a, ¬ r a a) :
    ∀ (R : List PyKey), R ≠ [] → ∃ m ∈ R, ∀ u ∈ R, ¬ r u m := by
  intro R
  induction R with
  | nil => intro h; exact absurd rfl h
  | cons x xs ih =>
    intro _
    by_cases hempty : xs = []
    · subst hempty
      refine ⟨x, by simp, ?_⟩
      intro u hu
      rw [List.mem_singleton] at hu
      subst hu
      exact hirr u
    · obtain ⟨m, hm, hmin⟩ := ih hempty
      by_cases hxm : r x m
      · refine ⟨x, by simp, ?_⟩
        intro u hu hru
        rcases List.mem_cons.mp hu with rfl | hu'
        · exact hirr u hru
        · exact hmin u hu' (htrans u x m hru hxm)
      · refine ⟨m, by simp [hm], ?_⟩
        intro u hu hru
        rcases List.mem_cons.mp hu with rfl | hu'
        · exact hxm hru
        · exact hmin u hu' hru

theorem cycle_of_all_have_pred (E : List (PyKey × PyKey)) (R : List PyKey)
    (hne : R ≠ [])
    (hstep : ∀ v ∈ R, ∃ u ∈ R, (u, v) ∈ E) : hasCycleP E := by
  by_contra hnc
  have hirr : ∀ a, ¬ Relation.TransGen (pairRel E) a a := fun a h => hnc ⟨a, h⟩
  obtain ⟨m, hm, hmin⟩ := exists_min_elem (Relation.TransGen (pairRel E))
    (fun a b c hab hbc => Relation.TransGen.trans hab hbc) hirr R hne
  obtain ⟨u, hu, hedge⟩ := hstep m hm
  exact hmin u hu (Relation.TransGen.single hedge)

/-! ## Unfolding `is_dag` -/

theorem is_dag_nil_nodes (edges : List JVal) : is_dag [] edges = .ok true := rfl

theorem is_dag_nil_edges (nodes : List JVal) : is_dag nodes [] = .ok true := by
  cases nodes <;> rfl

theorem is_dag_of_failed_nodes (nodes edges : List JVal)
    (hn : nodes ≠ []) (he : edges ≠ [])
    (h : buildInDegree nodes [] = .failed) :
    is_dag nodes edges = .ok false := by
  have h1 : ¬ (nodes.isEmpty = true) := by simp [hn]
  have h2 : ¬ (edges.isEmpty = true) := by simp [he]
  rw [is_dag, if_neg h1, if_neg h2]
  simp only [h]

theorem is_dag_of_exc_nodes (nodes edges : List JVal)
    (hn : nodes ≠ []) (he : edges ≠ []) (m : String)
    (h : buildInDegree nodes [] = .exc m) :
    is_dag nodes edges = .error m := by
  have h1 : ¬ (nodes.isEmpty = true) := by simp [hn]
  have h2 : ¬ (edges.isEmpty = true) := by simp [he]
  rw [is_dag, if_neg h1, if_neg h2]
  simp only [h]

theorem is_dag_of_failed_graph (nodes edges : List JVal)
    (hn : nodes ≠ []) (he : edges ≠ []) (ind0 : PyDict Int)
    (h0 : buildInDegree nodes [] = .ok ind0)
    (hbg : buildGraph edges [] ind0 = .failed) :
    is_dag nodes edges = .ok false := by
  have h1 : ¬ (nodes.isEmpty = true) := by simp [hn]
  have h2 : ¬ (edges.isEmpty = true) := by simp [he]
  rw [is_dag, if_neg h1, if_neg h2]
  simp only [h0, hbg]

theorem is_dag_of_exc_graph (nodes edges : List JVal)
    (hn : nodes ≠ []) (he : edges ≠ []) (ind0 : PyDict Int) (m : String)
    (h0 : buildInDegree nodes [] = .ok ind0)
    (hbg : buildGraph edges [] ind0 = .exc m) :
    is_dag nodes edges = .error m := by
  have h1 : ¬ (nodes.isEmpty = true) := by simp [hn]
  have h2 : ¬ (edges.isEmpty = true) := by simp [he]
  rw [is_dag, if_neg h1, if_neg h2]
  simp only [h0, hbg]

theorem is_dag_eq_kahn (nodes edges : List JVal)
    (hn : nodes ≠ []) (he : edges ≠ [])
    (ind0 : PyDict Int) (g : PyDict (List PyKey)) (ind : PyDict Int)
    (h0 : buildInDegree nodes [] = .ok ind0)
    (hbg : buildGraph edges [] ind0 = .ok (g, ind)) :
    is_dag nodes edges =
      .ok (kahnLoop g (ind.length + 1) ind
        ((akeys ind).filter (fun v =>
          match alookup ind v with
          | some d => d == 0
          | none => false)) 0 == nodes.length) := by
  have h1 : ¬ (nodes.isEmpty = true) := by simp [hn]
  have h2 : ¬ (edges.isEmpty = true) := by simp [he]
  rw [is_dag, if_neg h1, if_neg h2]
  simp only [h0, hbg]
/-! ## The initial state of the Kahn loop -/

theorem kahn_init (V : List PyKey) (E : List (PyKey × PyKey)) (ind : PyDict Int)
    (hkeys : akeys ind = V) (hV : V.Nodup)
    (hdeg : ∀ v ∈ V, alookup ind v = some ((inCount E v : Int))) :
    KInv V E ind
      ((akeys ind).filter (fun v =>
        match alookup ind v with
        | some d => d == 0
        | none => false)) [] := by
  constructor
  case keys_eq => exact hkeys
  case done_nd => exact List.nodup_nil
  case done_sub => intro v hv; simp at hv
  case q_nd =>
    rw [hkeys]
    exact hV.filter _
  case q_sub =>
    intro v hv
    rw [List.mem_filter, hkeys] at hv
    exact hv.1
  case q_done => intro v hv; simp
  case deg =>
    intro v hv
    rw [remIn_nil_done]
    exact hdeg v hv
  case q_char =>
    intro v hv
    rw [List.mem_filter, hkeys]
    constructor
    · rintro ⟨hmem, hcond⟩
      rw [hdeg v hv] at hcond
      simp only [beq_iff_eq] at hcond
      refine ⟨?_, by simp⟩
      rw [remIn_nil_done]
      exact_mod_cast hcond
    · rintro ⟨hz, _⟩
      rw [remIn_nil_done] at hz
      refine ⟨hv, ?_⟩
      rw [hdeg v hv]
      simp [hz]
  case topo => intro u v _ hv; simp at hv

/-! ## Characterization of `is_dag` on validated input -/

theorem goodEdgeK_endpoints_mem (keys : List PyKey) (e : JVal)
    (h : goodEdgeK keys e = true) (a b : PyKey)
    (hst : extractEdge e = some (a, b)) : a ∈ keys ∧ b ∈ keys := by
  obtain ⟨s, t, hs, ht, hks, hkt⟩ := (extractEdge_eq_some e a b).mp hst
  simp only [goodEdgeK, hs, ht, hks, hkt] at h
  rw [Bool.and_eq_true, decide_eq_true_eq, decide_eq_true_eq] at h
  exact h

theorem is_dag_char (nodes edges : List JVal)
    (hn : nodes ≠ []) (he : edges ≠ [])
    (ind0 : PyDict Int) (g : PyDict (List PyKey)) (ind : PyDict Int)
    (h0 : buildInDegree nodes [] = .ok ind0)
    (hbg : buildGraph edges [] ind0 = .ok (g, ind)) :
    is_dag nodes edges = .ok true ↔
      ((akeys ind0).length = nodes.length ∧ ¬ hasCycleK edges) := by
  have hV : (akeys ind0).Nodup := buildInDegree_keys_nodup nodes ind0 h0
  have hkeys : akeys ind = akeys ind0 := buildGraph_keys edges [] ind0 g ind hbg
  have hgood : ∀ e ∈ edges, goodEdgeK (akeys ind0) e = true :=
    (buildGraph_ok_iff edges [] ind0).mp ⟨(g, ind), hbg⟩
  have hE_end : ∀ p ∈ extractEdges edges, p.1 ∈ akeys ind0 ∧ p.2 ∈ akeys ind0 := by
    intro p hp
    obtain ⟨e, hee, hx⟩ := List.mem_filterMap.mp hp
    exact goodEdgeK_endpoints_mem (akeys ind0) e (hgood e hee) p.1 p.2 hx
  have hE1 : ∀ p ∈ extractEdges edges, p.1 ∈ akeys ind0 :=
    fun p hp => (hE_end p hp).1
  have hE2 : ∀ p ∈ extractEdges edges, p.2 ∈ akeys ind0 :=
    fun p hp => (hE_end p hp).2
  have hG : ∀ u, (alookup g u).getD [] = targetsOf (extractEdges edges) u := by
    intro u
    have hadj := buildGraph_adj edges [] ind0 g ind hbg u
    simpa [alookup] using hadj
  have hdeg : ∀ v ∈ akeys ind0,
      alookup ind v = some ((inCount (extractEdges edges) v : Int)) := by
    intro v hv
    have hval := buildGraph_ind_values edges [] ind0 g ind hbg v
    rw [buildInDegree_values nodes ind0 h0 v hv] at hval
    simpa using hval
  have hinit := kahn_init (akeys ind0) (extractEdges edges) ind hkeys hV hdeg
  have hlen_keys : (akeys ind).length = ind.length := by simp [akeys]
  obtain ⟨ind', done', hfin, hcount⟩ :=
    kahnLoop_run (akeys ind0) (extractEdges edges) g hE1 hE2 hG
      (ind.length + 1) ind _ [] hinit
      (by rw [← hkeys]; rw [hlen_keys]; simp)
  have hsubperm : done'.Subperm (akeys ind0) :=
    List.Nodup.subperm hfin.done_nd (fun a ha => hfin.done_sub a ha)
  have hdone_le : done'.length ≤ (akeys ind0).length := hsubperm.length_le
  have hVle : (akeys ind0).length ≤ nodes.length :=
    buildInDegree_keys_length_le nodes ind0 h0
  rw [is_dag_eq_kahn nodes edges hn he ind0 g ind h0 hbg]
  simp only [Except.ok.injEq]
  have hzero : ([] : List PyKey).length = 0 := rfl
  rw [← hzero, hcount, beq_iff_eq]
  constructor
  · intro hr
    have hveq : done'.length = (akeys ind0).length := by omega
    have hperm : done'.Perm (akeys ind0) :=
      hsubperm.perm_of_length_le (by omega)
    have hdoneV : ∀ v ∈ akeys ind0, v ∈ done' :=
      fun v hv => hperm.mem_iff.mpr hv
    refine ⟨by omega, ?_⟩
    rw [hasCycleK_iff_pairs]
    apply no_cycle_of_topo (extractEdges edges) done' hfin.done_nd
    intro u v hedge
    exact hfin.topo u v hedge (hdoneV v (hE2 (u, v) hedge))
  · rintro ⟨hVlen, hnc⟩
    by_contra hne'
    have hlt : done'.length < (akeys ind0).length := by omega
    have hex : ∃ v ∈ akeys ind0, v ∉ done' := by
      by_contra hall
      push_neg at hall
      have hsp : (akeys ind0).Subperm done' := List.Nodup.subperm hV hall
      have := hsp.length_le
      omega
    have hRne : (akeys ind0).filter (fun v => decide (v ∉ done')) ≠ [] := by
      obtain ⟨v, hv, hvn⟩ := hex
      intro hnil
      have hvR : v ∈ (akeys ind0).filter (fun v => decide (v ∉ done')) := by
        rw [List.mem_filter]
        exact ⟨hv, by simpa using hvn⟩
      rw [hnil] at hvR
      simp at hvR
    have hRstep : ∀ v ∈ (akeys ind0).filter (fun v => decide (v ∉ done')),
        ∃ u ∈ (akeys ind0).filter (fun v => decide (v ∉ done')),
          (u, v) ∈ extractEdges edges := by
      intro v hv
      rw [List.mem_filter, decide_eq_true_eq] at hv
      obtain ⟨hvV, hvnd⟩ := hv
      have hchar := hfin.q_char v hvV
      have hrem : remIn (extractEdges edges) done' v ≠ 0 := by
        intro hz
        have hvq := hchar.mpr ⟨hz, hvnd⟩
        simp at hvq
      obtain ⟨u, huE, hund⟩ := remIn_pos_exists (extractEdges edges) done' v hrem
      refine ⟨u, ?_, huE⟩
      rw [List.mem_filter, decide_eq_true_eq]
      exact ⟨hE1 (u, v) huE, hund⟩
    have hcyc := cycle_of_all_have_pred (extractEdges edges) _ hRne hRstep
    rw [hasCycleK_iff_pairs] at hnc
    exact hnc hcyc

/-! ## Helpers for the claim theorems -/

theorem decide_mem_congr (ids1 ids2 : List PyKey) (a : PyKey)
    (h : ∀ v, v ∈ ids1 ↔ v ∈ ids2) :
    decide (a ∈ ids1) = decide (a ∈ ids2) := by
  by_cases hm : a ∈ ids1
  · simp [hm, (h a).mp hm]
  · have hm2 : a ∉ ids2 := fun hmm => hm ((h a).mpr hmm)
    simp [hm, hm2]

theorem goodEdgeK_congr (ids1 ids2 : List PyKey)
    (h : ∀ v, v ∈ ids1 ↔ v ∈ ids2) (e : JVal) :
    goodEdgeK ids1 e = goodEdgeK ids2 e := by
  cases hs : getField e "source" with
  | none => simp [goodEdgeK, hs]
  | some s =>
    cases ht : getField e "target" with
    | none => simp [goodEdgeK, hs, ht]
    | some t =>
      cases hks : toKey s with
      | error m => simp [goodEdgeK, hs, ht, hks]
      | ok ks =>
        cases hkt : toKey t with
        | error m => simp [goodEdgeK, hs, ht, hks, hkt]
        | ok kt =>
          simp only [goodEdgeK, hs, ht, hks, hkt]
          rw [decide_mem_congr ids1 ids2 ks h, decide_mem_congr ids1 ids2 kt h]

theorem buildInDegree_exists_of_wf (nodes : List JVal)
    (hwn : ∀ n ∈ nodes, goodNodeK n = true) :
    ∃ ind0, buildInDegree nodes [] = .ok ind0 :=
  (buildInDegree_ok_iff nodes []).mpr hwn

theorem no_cycle_single_edge (e : JVal) (a b : JVal)
    (ha : getField e "source" = some a) (hb : getField e "target" = some b)
    (hne : a ≠ b) : ¬ hasCycle [e] := by
  rintro ⟨x, hcyc⟩
  have hchar : ∀ y z, Relation.TransGen (edgeRel [e]) y z → y = a ∧ z = b := by
    intro y z h
    induction h with
    | single hr =>
      obtain ⟨e', he', h1, h2⟩ := hr
      rw [List.mem_singleton] at he'
      subst he'
      rw [ha] at h1
      rw [hb] at h2
      exact ⟨(Option.some.inj h1).symm, (Option.some.inj h2).symm⟩
    | tail hstep hr ih =>
      obtain ⟨e', he', h1, h2⟩ := hr
      rw [List.mem_singleton] at he'
      subst he'
      rw [hb] at h2
      exact ⟨ih.1, (Option.some.inj h2).symm⟩
  obtain ⟨h1, h2⟩ := hchar x x hcyc
  exact hne (h1.symm.trans h2)

theorem exceptBool_eq_of_iff (x y : Except String Bool)
    (hx : ∃ b, x = .ok b) (hy : ∃ b, y = .ok b)
    (h : (x = .ok true) ↔ (y = .ok true)) : x = y := by
  obtain ⟨bx, rfl⟩ := hx
  obtain ⟨b2, rfl⟩ := hy
  cases bx <;> cases b2 <;> simp_all

/-! ## Claim theorems -/

/-- C1 counterexample: at nodes `[{id: true}, {id: 1}]` with the single
edge `true ⟶ 1`, every hypothesis of the claim holds as written (each node
a record with `id`, the two ids distinct as values, the edge's endpoints
among the ids, and the graph on raw id values acyclic), yet `is_dag`
returns False: CPython's `True == 1` collapses the two ids into one
`in_degree` key, so at most one of the two nodes is ever processed and the
line 77 comparison with `len(nodes) = 2` fails. -/
theorem C1_counterexample :
    (∀ n ∈ [JVal.obj (.cons "id" (.bool true) .nil),
            JVal.obj (.cons "id" (.num 1) .nil)], goodNode n = true) ∧
    (nodeIds [JVal.obj (.cons "id" (.bool true) .nil),
              JVal.obj (.cons "id" (.num 1) .nil)]).Nodup ∧
    (∀ e ∈ [JVal.obj (.cons "source" (.bool true)
              (.cons "target" (.num 1) .nil))],
      goodEdge (nodeIds [JVal.obj (.cons "id" (.bool true) .nil),
                         JVal.obj (.cons "id" (.num 1) .nil)]) e = true) ∧
    ¬ hasCycle [JVal.obj (.cons "source" (.bool true)
                  (.cons "target" (.num 1) .nil))] ∧
    is_dag [JVal.obj (.cons "id" (.bool true) .nil),
            JVal.obj (.cons "id" (.num 1) .nil)]
      [JVal.obj (.cons "source" (.bool true) (.cons "target" (.num 1) .nil))]
      = .ok false :=
  ⟨by decide, by decide, by decide,
   no_cycle_single_edge _ (JVal.bool true) (JVal.num 1) rfl rfl (by decide),
   by decide⟩

/-- C1 as amended: for every well-formed input whose node ids are hashable
and pairwise distinct *as Python dict keys* (a boolean coincides with its
numeric value), and whose edges are records with `source` and `target`
each naming some node's id key, with at least one node and at least one
edge, `is_dag` returns `ok true` if and only if the directed graph on id
keys formed by the edges contains no cycle. -/
theorem C1_amended_iff_acyclic (nodes edges : List JVal)
    (hn : nodes ≠ []) (he : edges ≠ [])
    (hwn : ∀ n ∈ nodes, goodNodeK n = true)
    (hnd : (nodeKeys nodes).Nodup)
    (hwe : ∀ e ∈ edges, goodEdgeK (nodeKeys nodes) e = true) :
    is_dag nodes edges = .ok true ↔ ¬ hasCycleK edges := by
  obtain ⟨ind0, h0⟩ := buildInDegree_exists_of_wf nodes hwn
  have hmem := buildInDegree_mem_keys nodes ind0 h0
  have hwe' : ∀ e ∈ edges, goodEdgeK (akeys ind0) e = true := by
    intro e hee
    rw [goodEdgeK_congr (akeys ind0) (nodeKeys nodes) hmem e]
    exact hwe e hee
  obtain ⟨gi, hbg⟩ := (buildGraph_ok_iff edges [] ind0).mpr hwe'
  obtain ⟨g, ind⟩ := gi
  rw [is_dag_char nodes edges hn he ind0 g ind h0 hbg]
  have hlen := buildInDegree_keys_length_eq nodes ind0 h0 hwn hnd
  simp [hlen]

/-- C2 counterexample: a node sequence whose single element is not a record
with key `id`, together with the empty edge sequence, makes `is_dag` return
True (the `if not edges` shortcut fires before any node is inspected),
contradicting the claim that it returns False for every edge sequence. -/
theorem C2_counterexample : is_dag [JVal.null] [] = .ok true := rfl

/-- C2 as amended: for every node sequence containing an element that is
not a record with key `id`, preceded only by records whose `id` values are
hashable, and every *non-empty* edge sequence, `is_dag` returns False.
(With an empty edge sequence the line 32 shortcut returns True first, and
an unhashable id earlier in the sequence raises `TypeError` at line 44
before the bad node is reached.) -/
theorem C2_amended_bad_node (pre rest edges : List JVal) (n : JVal)
    (hpre : ∀ m ∈ pre, goodNodeK m = true)
    (hbad : goodNode n = false) (he : edges ≠ []) :
    is_dag (pre ++ n :: rest) edges = .ok false := by
  have hne : pre ++ n :: rest ≠ [] := by simp
  exact is_dag_of_failed_nodes _ edges hne he
    (buildInDegree_failed_at pre rest n [] hpre hbad)

/-- C6: a single node with id `A` and a single self-loop edge `A ⟶ A`
make `is_dag` return False. -/
theorem C6_self_loop :
    is_dag [JVal.obj (.cons "id" (.str "A") .nil)]
      [JVal.obj (.cons "source" (.str "A") (.cons "target" (.str "A") .nil))]
      = .ok false := by decide

/-- C10 counterexample: at nodes `[{id: []}, {id: []}]` (well-formed
records with a duplicated id) and the matching edge `[] ⟶ []`, the claim
asserts `is_dag` returns False, but CPython raises
`TypeError: unhashable type: 'list'` at `in_degree[node_id] = 0`
(line 44), so the function raises instead of returning False. -/
theorem C10_counterexample :
    (∀ n ∈ [JVal.obj (.cons "id" (.arr .nil) .nil),
            JVal.obj (.cons "id" (.arr .nil) .nil)], goodNode n = true) ∧
    ¬ (nodeIds [JVal.obj (.cons "id" (.arr .nil) .nil),
                JVal.obj (.cons "id" (.arr .nil) .nil)]).Nodup ∧
    (∀ e ∈ [JVal.obj (.cons "source" (.arr .nil)
              (.cons "target" (.arr .nil) .nil))],
      goodEdge (nodeIds [JVal.obj (.cons "id" (.arr .nil) .nil),
                         JVal.obj (.cons "id" (.arr .nil) .nil)]) e = true) ∧
    is_dag [JVal.obj (.cons "id" (.arr .nil) .nil),
            JVal.obj (.cons "id" (.arr .nil) .nil)]
      [JVal.obj (.cons "source" (.arr .nil) (.cons "target" (.arr .nil) .nil))]
      = .error "unhashable type: 'list'" := by
  refine ⟨by decide, by decide, by decide, by decide⟩

/-- C10 as amended: with node records whose ids are hashable and among
which some id *key* repeats, and a non-empty edge list of records whose
endpoint keys reference node id keys, `is_dag` returns False: the
duplicate keys collapse to a single in-degree entry, so the processed
count can never reach the raw node-list length. -/
theorem C10_amended_duplicate_keys (nodes edges : List JVal)
    (hwn : ∀ n ∈ nodes, goodNodeK n = true)
    (hdup : ¬ (nodeKeys nodes).Nodup)
    (he : edges ≠ [])
    (hwe : ∀ e ∈ edges, goodEdgeK (nodeKeys nodes) e = true) :
    is_dag nodes edges = .ok false := by
  have hn : nodes ≠ [] := by
    intro h
    subst h
    simp [nodeKeys] at hdup
  obtain ⟨ind0, h0⟩ := buildInDegree_exists_of_wf nodes hwn
  have hmem := buildInDegree_mem_keys nodes ind0 h0
  have hwe' : ∀ e ∈ edges, goodEdgeK (akeys ind0) e = true := by
    intro e hee
    rw [goodEdgeK_congr (akeys ind0) (nodeKeys nodes) hmem e]
    exact hwe e hee
  obtain ⟨gi, hbg⟩ := (buildGraph_ok_iff edges [] ind0).mpr hwe'
  obtain ⟨g, ind⟩ := gi
  have hchar := is_dag_char nodes edges hn he ind0 g ind h0 hbg
  have hlt := buildInDegree_keys_length_lt nodes ind0 h0 hwn hdup
  have hshape := is_dag_eq_kahn nodes edges hn he ind0 g ind h0 hbg
  rw [hshape] at hchar ⊢
  simp only [Except.ok.injEq] at hchar ⊢
  rw [Bool.eq_false_iff]
  intro hbt
  have hP := hchar.mp hbt
  omega

/-- C5 counterexample: with one node `{id: "A"}` and the two edge elements
`{source: [], target: "A"}` and `42`, one order raises `TypeError` at the
`source not in in_degree` check (line 55, the list is unhashable) while
the swapped order returns False at the shape check (line 48) on the
non-record `42` first — permuting the edges changes the outcome. -/
theorem C5_counterexample :
    ([JVal.obj (.cons "source" (.arr .nil) (.cons "target" (.str "A") .nil)),
      JVal.num 42].Perm
     [JVal.num 42,
      JVal.obj (.cons "source" (.arr .nil) (.cons "target" (.str "A") .nil))]) ∧
    is_dag [JVal.obj (.cons "id" (.str "A") .nil)]
      [JVal.obj (.cons "source" (.arr .nil) (.cons "target" (.str "A") .nil)),
       JVal.num 42] = .error "unhashable type: 'list'" ∧
    is_dag [JVal.obj (.cons "id" (.str "A") .nil)]
      [JVal.num 42,
       JVal.obj (.cons "source" (.arr .nil) (.cons "target" (.str "A") .nil))]
      = .ok false :=
  ⟨List.Perm.swap (JVal.num 42)
     (JVal.obj (.cons "source" (.arr .nil) (.cons "target" (.str "A") .nil))) [],
   by decide, by decide⟩

/-- C5 as amended: permuting the edge sequence does not change the outcome
of `is_dag`, for every node list, provided no edge can make the loop
raise: every edge that is a record with both `source` and `target` has
hashable values there.  (Without that proviso an order that reaches an
unhashable endpoint raises while another returns False first.) -/
theorem C5_amended_perm_invariant (nodes edges edges' : List JVal)
    (hp : edges.Perm edges')
    (hhash : ∀ e ∈ edges, noRaiseEdge e = true) :
    is_dag nodes edges = is_dag nodes edges' := by
  cases hnodes : nodes with
  | nil => rfl
  | cons nh nt =>
    rw [← hnodes]
    have hn : nodes ≠ [] := by rw [hnodes]; simp
    by_cases hee : edges = []
    · subst hee
      have h2 : edges' = [] := hp.symm.eq_nil
      subst h2
      rfl
    · have hee' : edges' ≠ [] := by
        intro h
        subst h
        exact hee hp.eq_nil
      have hhash' : ∀ e ∈ edges', noRaiseEdge e = true :=
        fun e hx => hhash e (hp.mem_iff.mpr hx)
      cases hbi : buildInDegree nodes [] with
      | exc m =>
        rw [is_dag_of_exc_nodes nodes edges hn hee m hbi,
          is_dag_of_exc_nodes nodes edges' hn hee' m hbi]
      | failed =>
        rw [is_dag_of_failed_nodes nodes edges hn hee hbi,
          is_dag_of_failed_nodes nodes edges' hn hee' hbi]
      | ok ind0 =>
        by_cases hgood : ∀ e ∈ edges, goodEdgeK (akeys ind0) e = true
        · have hgood' : ∀ e ∈ edges', goodEdgeK (akeys ind0) e = true :=
            fun e hx => hgood e (hp.mem_iff.mpr hx)
          obtain ⟨gi, hbg⟩ := (buildGraph_ok_iff edges [] ind0).mpr hgood
          obtain ⟨g, ind⟩ := gi
          obtain ⟨gi', hbg'⟩ := (buildGraph_ok_iff edges' [] ind0).mpr hgood'
          obtain ⟨g', ind''⟩ := gi'
          have h1 := is_dag_char nodes edges hn hee ind0 g ind hbi hbg
          have h2 := is_dag_char nodes edges' hn hee' ind0 g' ind'' hbi hbg'
          have hcyc : hasCycleK edges ↔ hasCycleK edges' := by
            have hrel : edgeRelK edges = edgeRelK edges' := by
              funext a b
              apply propext
              constructor
              · rintro ⟨e, hx, hrest⟩
                exact ⟨e, hp.mem_iff.mp hx, hrest⟩
              · rintro ⟨e, hx, hrest⟩
                exact ⟨e, hp.mem_iff.mpr hx, hrest⟩
            rw [hasCycleK, hasCycleK, hrel]
          have hiff : (is_dag nodes edges = .ok true) ↔
              (is_dag nodes edges' = .ok true) := by
            rw [h1, h2]
            exact and_congr_right (fun _ => not_congr hcyc)
          exact exceptBool_eq_of_iff _ _
            ⟨_, is_dag_eq_kahn nodes edges hn hee ind0 g ind hbi hbg⟩
            ⟨_, is_dag_eq_kahn nodes edges' hn hee' ind0 g' ind'' hbi hbg'⟩
            hiff
        · push_neg at hgood
          obtain ⟨e, hx, hbadb⟩ := hgood
          have hbadE : ∃ f ∈ edges, goodEdgeK (akeys ind0) f = false :=
            ⟨e, hx, by
              cases hge : goodEdgeK (akeys ind0) e with
              | false => rfl
              | true => exact absurd hge hbadb⟩
          have hbadE' : ∃ f ∈ edges', goodEdgeK (akeys ind0) f = false := by
            obtain ⟨f, hf, hfb⟩ := hbadE
            exact ⟨f, hp.mem_iff.mp hf, hfb⟩
          rw [is_dag_of_failed_graph nodes edges hn hee ind0 hbi
              (buildGraph_failed_of edges [] ind0 hhash hbadE),
            is_dag_of_failed_graph nodes edges' hn hee' ind0 hbi
              (buildGraph_failed_of edges' [] ind0 hhash' hbadE')]

/-- C7 counterexample: at nodes `[{id: true}, {id: "B"}]` with the edge
`{source: 1, target: "B"}`, the edge's source equals no node's id as a
value (`1` is neither `true` nor `"B"`), so the claim asserts
`is_dag = false`; but CPython's `1 in {True: 0, "B": 0}` is True
(`1 == True`), the edge is accepted at line 55, Kahn's algorithm processes
both nodes, and line 77 returns True. -/
theorem C7_counterexample :
    (∀ n ∈ [JVal.obj (.cons "id" (.bool true) .nil),
            JVal.obj (.cons "id" (.str "B") .nil)], goodNode n = true) ∧
    getField (JVal.obj (.cons "source" (.num 1)
      (.cons "target" (.str "B") .nil))) "source" = some (JVal.num 1) ∧
    ((JVal.num 1) ∉ nodeIds [JVal.obj (.cons "id" (.bool true) .nil),
                             JVal.obj (.cons "id" (.str "B") .nil)]) ∧
    is_dag [JVal.obj (.cons "id" (.bool true) .nil),
            JVal.obj (.cons "id" (.str "B") .nil)]
      [JVal.obj (.cons "source" (.num 1) (.cons "target" (.str "B") .nil))]
      = .ok true := by
  refine ⟨by decide, by decide, by decide, by decide⟩

/-- C7 as amended: with well-formed nodes whose ids are hashable, and
edges none of which can make the loop raise, an edge record whose source
or target *key* matches no node id key makes `is_dag` return False
(folded into the verdict: the edge loop returns False, no distinct error
is surfaced). -/
theorem C7_amended_dangling (nodes edges : List JVal)
    (hn : nodes ≠ [])
    (hwn : ∀ n ∈ nodes, goodNodeK n = true)
    (hhash : ∀ e ∈ edges, noRaiseEdge e = true)
    (e : JVal) (hee : e ∈ edges) (s t : JVal) (ks kt : PyKey)
    (hs : getField e "source" = some s) (ht : getField e "target" = some t)
    (hks : toKey s = .ok ks) (hkt : toKey t = .ok kt)
    (hdangle : ks ∉ nodeKeys nodes ∨ kt ∉ nodeKeys nodes) :
    is_dag nodes edges = .ok false := by
  have he : edges ≠ [] := by
    intro h
    subst h
    simp at hee
  obtain ⟨ind0, h0⟩ := buildInDegree_exists_of_wf nodes hwn
  have hmem := buildInDegree_mem_keys nodes ind0 h0
  have hbad : goodEdgeK (akeys ind0) e = false := by
    simp only [goodEdgeK, hs, ht, hks, hkt]
    rcases hdangle with hd | hd
    · have h1 : ks ∉ akeys ind0 := fun hh => hd ((hmem ks).mp hh)
      simp [h1]
    · have h1 : kt ∉ akeys ind0 := fun hh => hd ((hmem kt).mp hh)
      simp [h1]
  exact is_dag_of_failed_graph nodes edges hn he ind0 h0
    (buildGraph_failed_of edges [] ind0 hhash ⟨e, hee, hbad⟩)

/-- C3: whenever the endpoint decodes a non-empty node list and an empty
edge list, it answers with `is_dag = true` and the isolated-nodes message,
whatever the node elements contain. -/
theorem C3_isolated_nodes (decode : String → Except String JVal)
    (sn se : String) (ns : JArr) (hne : ns ≠ .nil)
    (hdn : decode sn = .ok (.arr ns)) (hde : decode se = .ok (.arr .nil)) :
    parse_pipeline decode sn se =
      .result ns.toList.length 0 true "Pipeline contains only isolated nodes" := by
  rw [parse_pipeline, hdn, hde]
  cases ns with
  | nil => exact absurd rfl hne
  | cons h t =>
    simp only [parse_pipeline_core, JArr.toList, List.length_cons,
      List.length_nil]
    simp [is_dag_nil_edges]

/-- C4: whenever the endpoint decodes an empty node list and a non-empty
edge list, it answers with a success-style result record carrying
`num_nodes = 0`, the edge count, `is_dag = false` and the
edges-without-nodes message, whatever the edge elements contain. -/
theorem C4_edges_without_nodes (decode : String → Except String JVal)
    (sn se : String) (es : JArr) (hne : es ≠ .nil)
    (hdn : decode sn = .ok (.arr .nil)) (hde : decode se = .ok (.arr es)) :
    parse_pipeline decode sn se =
      .result 0 es.toList.length false
        "Invalid pipeline - edges exist without nodes" := by
  rw [parse_pipeline, hdn, hde]
  cases es with
  | nil => exact absurd rfl hne
  | cons h t =>
    simp only [parse_pipeline_core, JArr.toList, List.length_cons,
      List.length_nil]
    simp

/-- C8: a decoded nodes value that is not a list is answered with the
error record `Nodes data must be a list`; when nodes decode to a list but
edges do not, the answer is the error record `Edges data must be a list`
(nodes are checked first). -/
theorem C8_shape_errors (decode : String → Except String JVal)
    (sn se : String) (vn ve : JVal)
    (hdn : decode sn = .ok vn) (hde : decode se = .ok ve) :
    (isList vn = false →
      parse_pipeline decode sn se = .error "Nodes data must be a list") ∧
    (isList vn = true → isList ve = false →
      parse_pipeline decode sn se = .error "Edges data must be a list") := by
  constructor
  · intro hvn
    rw [parse_pipeline, hdn, hde]
    cases vn with
    | arr _ => simp [isList] at hvn
    | null => rfl
    | bool _ => rfl
    | num _ => rfl
    | str _ => rfl
    | obj _ => rfl
  · intro hvn hve
    rw [parse_pipeline, hdn, hde]
    cases vn with
    | arr ns =>
      cases ve with
      | arr _ => simp [isList] at hve
      | null => rfl
      | bool _ => rfl
      | num _ => rfl
      | str _ => rfl
      | obj _ => rfl
    | null => simp [isList] at hvn
    | bool _ => simp [isList] at hvn
    | num _ => simp [isList] at hvn
    | str _ => simp [isList] at hvn
    | obj _ => simp [isList] at hvn

/-- C9: for every decoder and every pair of input strings, the endpoint
returns a response value, either an error record or a result record; all
failure paths (decode errors and the `TypeError` a dictionary operation
can raise inside `is_dag`, caught at lines 138-139) are converted to a
response rather than escaping. -/
theorem C9_always_responds (decode : String → Except String JVal)
    (sn se : String) :
    (∃ m, parse_pipeline decode sn se = .error m) ∨
    (∃ a b c m, parse_pipeline decode sn se = .result a b c m) := by
  rw [parse_pipeline]
  cases decode sn with
  | error e => exact Or.inl ⟨_, rfl⟩
  | ok vn =>
    cases decode se with
    | error e => exact Or.inl ⟨_, rfl⟩
    | ok ve =>
      cases vn with
      | arr ns =>
        cases ve with
        | arr es =>
          simp only [parse_pipeline_core]
          by_cases h1 : (ns.toList.length == 0 && es.toList.length == 0) = true
          · rw [if_pos h1]
            exact Or.inr ⟨_, _, _, _, rfl⟩
          · rw [if_neg h1]
            by_cases h2 : (ns.toList.length == 0 && es.toList.length > 0) = true
            · rw [if_pos h2]
              exact Or.inr ⟨_, _, _, _, rfl⟩
            · rw [if_neg h2]
              cases hdag : is_dag ns.toList es.toList with
              | error m => exact Or.inl ⟨_, rfl⟩
              | ok b => exact Or.inr ⟨_, _, _, _, rfl⟩
        | null => exact Or.inl ⟨_, rfl⟩
        | bool _ => exact Or.inl ⟨_, rfl⟩
        | num _ => exact Or.inl ⟨_, rfl⟩
        | str _ => exact Or.inl ⟨_, rfl⟩
        | obj _ => exact Or.inl ⟨_, rfl⟩
      | null => exact Or.inl ⟨_, rfl⟩
      | bool _ => exact Or.inl ⟨_, rfl⟩
      | num _ => exact Or.inl ⟨_, rfl⟩
      | str _ => exact Or.inl ⟨_, rfl⟩
      | obj _ => exact Or.inl ⟨_, rfl⟩

/-! ## Witnesses -/

theorem C1_witness :
    is_dag
      [JVal.obj (.cons "id" (.str "A") .nil),
       JVal.obj (.cons "id" (.str "B") .nil)]
      [JVal.obj (.cons "source" (.str "A") (.cons "target" (.str "B") .nil))]
      = .ok true
    ↔ ¬ hasCycleK
      [JVal.obj (.cons "source" (.str "A") (.cons "target" (.str "B") .nil))] :=
  C1_amended_iff_acyclic _ _ (by decide) (by decide) (by decide) (by decide)
    (by decide)

theorem C2_witness :
    is_dag [JVal.null]
      [JVal.obj (.cons "source" (.str "A") (.cons "target" (.str "A") .nil))]
      = .ok false :=
  C2_amended_bad_node [] [] _ JVal.null
    (fun m hm => absurd hm (List.not_mem_nil m)) rfl (by decide)

theorem C3_witness :
    parse_pipeline
      (fun s => if s = "n" then Except.ok (JVal.arr (.cons JVal.null .nil))
                else Except.ok (JVal.arr .nil)) "n" "e" =
      .result (JArr.cons JVal.null JArr.nil).toList.length 0 true
        "Pipeline contains only isolated nodes" :=
  C3_isolated_nodes _ "n" "e" (JArr.cons JVal.null JArr.nil) (by decide)
    rfl rfl

theorem C4_witness :
    parse_pipeline
      (fun s => if s = "n" then Except.ok (JVal.arr .nil)
                else Except.ok (JVal.arr (.cons (JVal.num 7) .nil))) "n" "e" =
      .result 0 (JArr.cons (JVal.num 7) JArr.nil).toList.length false
        "Invalid pipeline - edges exist without nodes" :=
  C4_edges_without_nodes _ "n" "e" (JArr.cons (JVal.num 7) JArr.nil)
    (by decide) rfl rfl

theorem C5_witness :
    is_dag [JVal.obj (.cons "id" (.str "A") .nil)]
      [JVal.obj (.cons "source" (.str "A") (.cons "target" (.str "A") .nil)),
       JVal.obj (.cons "source" (.str "A") (.cons "target" (.str "Z") .nil))]
    = is_dag [JVal.obj (.cons "id" (.str "A") .nil)]
      [JVal.obj (.cons "source" (.str "A") (.cons "target" (.str "Z") .nil)),
       JVal.obj (.cons "source" (.str "A") (.cons "target" (.str "A") .nil))] :=
  C5_amended_perm_invariant _ _ _
    (List.Perm.swap
      (JVal.obj (.cons "source" (.str "A") (.cons "target" (.str "Z") .nil)))
      (JVal.obj (.cons "source" (.str "A") (.cons "target" (.str "A") .nil)))
      [])
    (by decide)

theorem C7_witness :
    is_dag [JVal.obj (.cons "id" (.str "A") .nil)]
      [JVal.obj (.cons "source" (.str "A") (.cons "target" (.str "C") .nil))]
      = .ok false :=
  C7_amended_dangling _ _ (by decide) (by decide) (by decide)
    (JVal.obj (.cons "source" (.str "A") (.cons "target" (.str "C") .nil)))
    (by decide) (JVal.str "A") (JVal.str "C") (PyKey.str "A") (PyKey.str "C")
    rfl rfl rfl rfl (Or.inr (by decide))

theorem C8_witness :
    parse_pipeline (fun _ => Except.ok JVal.null) "n" "e" =
      .error "Nodes data must be a list" ∧
    parse_pipeline
      (fun s => if s = "n" then Except.ok (JVal.arr .nil)
                else Except.ok JVal.null) "n" "e" =
      .error "Edges data must be a list" :=
  ⟨(C8_shape_errors _ "n" "e" JVal.null JVal.null rfl rfl).1 rfl,
   (C8_shape_errors _ "n" "e" (JVal.arr .nil) JVal.null rfl rfl).2 rfl rfl⟩

theorem C10_witness :
    is_dag
      [JVal.obj (.cons "id" (.str "A") .nil),
       JVal.obj (.cons "id" (.str "A") .nil)]
      [JVal.obj (.cons "source" (.str "A") (.cons "target" (.str "A") .nil))]
      = .ok false :=
  C10_amended_duplicate_keys _ _ (by decide) (by decide) (by decide) (by decide)
